import Mathlib

/-!
Verification of the response-parsing and result-assembly pipeline of
`server.py` (an AI content-generation server).

The pure core of the program is embedded shallowly:

* `parse_gemini_response` models the Python function of the same name
  (lines 414-486): section slicing on the upper-cased text via `str.find`,
  then per-item extraction with the regex
  `Label\s*i\s*:\s*(.+?)(?=Label\s*(i+1)\s*:|MARKER:|$)` compiled with
  `re.IGNORECASE | re.DOTALL`, whitespace normalisation via
  `' '.join(s.strip().split())`, and the per-type minimum-length filters.
  The regex semantics (leftmost match, greedy `\s*`, lazy `(.+?)`,
  lookahead alternatives, `$` matching at end of string and also just
  before a final newline since `re.MULTILINE` is off) are modelled
  explicitly by `labelMatch`, `captureAt` and `regexSearchItem`.
* `generate_via_gemini_ok` models the tail of `generate_via_gemini`
  (lines 156-191) on the path where no exception occurred, i.e. after
  the guard of lines 152-153 that raises on an empty response text:
  parse, pad with placeholders, build the result envelope (success flag
  and truncated lists).  `generate_via_gemini_exn` models the same
  return statement on the path where an exception interrupted the
  generation steps before any list was assigned (lines 111-113 and
  179-191).  `generate_via_gemini_run` combines the two from the guard
  onwards: an empty response text raises at line 153 and lands on the
  exception path, any other text runs the parse/pad tail.
* `generate_content` models the HTTP endpoint (lines 51-82): status-code
  selection and the error field of the body.

Strings are modelled as `List Char`; Python string upper/lower casing is
modelled on the ASCII range (all markers, labels and test data are ASCII).
-/

/-- Python's `\s` character class (ASCII range): space, tab, newline,
carriage return, vertical tab, form feed. -/
def pyIsSpace (c : Char) : Bool :=
  c = ' ' || c = '\t' || c = '\n' || c = '\r' || c = '\x0b' || c = '\x0c'

/-- ASCII lower-casing of one character, as applied by `re.IGNORECASE`
comparisons in the Python regexes. -/
def lowChar (c : Char) : Char :=
  if 65 ≤ c.toNat ∧ c.toNat ≤ 90 then Char.ofNat (c.toNat + 32) else c

/-- ASCII upper-casing of one character, as applied by `str.upper()`. -/
def upChar (c : Char) : Char :=
  if 97 ≤ c.toNat ∧ c.toNat ≤ 122 then Char.ofNat (c.toNat - 32) else c

/-- `text.upper()`: character-wise upper-casing. -/
def upperOf (s : List Char) : List Char := s.map upChar

/-- The decimal digit characters. -/
def digitChar : Nat → Char
  | 0 => '0' | 1 => '1' | 2 => '2' | 3 => '3' | 4 => '4'
  | 5 => '5' | 6 => '6' | 7 => '7' | 8 => '8' | _ => '9'

/-- Fuelled big-endian decimal rendering (executable; `Nat.digits` itself
is defined by well-founded recursion and does not reduce in the kernel). -/
def natCharsAux : Nat → Nat → List Char
  | 0, _ => []
  | fuel + 1, n => if n = 0 then [] else natCharsAux fuel (n / 10) ++ [digitChar (n % 10)]

/-- Decimal rendering of a natural number, as Python's `str(i)` /
f-string interpolation of an `int` produces it. -/
def natChars (n : Nat) : List Char :=
  if n = 0 then ['0'] else natCharsAux (n + 1) n

/-- Match the needle at the head of the haystack, case-sensitively,
returning the remainder.  Models a literal segment of a Python regex. -/
def stripPrefixExact : List Char → List Char → Option (List Char)
  | [], s => some s
  | _ :: _, [] => none
  | p :: ps, c :: cs => if c = p then stripPrefixExact ps cs else none

/-- Match the needle at the head of the haystack up to ASCII case,
returning the remainder.  Models a literal segment of a Python regex
compiled with `re.IGNORECASE`. -/
def stripPrefixCI : List Char → List Char → Option (List Char)
  | [], s => some s
  | _ :: _, [] => none
  | p :: ps, c :: cs => if lowChar c = lowChar p then stripPrefixCI ps cs else none

/-- Python's `str.find`: index of the first occurrence of the needle, or
`none` (Python: `-1`).  Only used with non-empty needles, matching the
source. -/
def strFind (needle : List Char) : List Char → Option Nat
  | [] => none
  | c :: t =>
    if needle.isPrefixOf (c :: t) then some 0
    else (strFind needle t).map (· + 1)

/-- Python slice `s[a:b]` for `0 ≤ a ≤ b` clamped semantics (`b < a`
yields the empty string, out-of-range indices are clamped). -/
def pySlice (s : List Char) (a b : Nat) : List Char := (s.drop a).take (b - a)

/-- Match the regex segment `Lab\s*i\s*:` (case-insensitive, `Lab` the
label word, `i` rendered in decimal) at the head of `s`, returning the
remainder after the colon.  The two `\s*` runs are deterministic here
because they are flanked by non-whitespace on both sides, so greedy
matching has no alternatives. -/
def labelMatch (lab : List Char) (i : Nat) (s : List Char) : Option (List Char) :=
  match stripPrefixCI lab s with
  | none => none
  | some s1 =>
    match stripPrefixExact (natChars i) (s1.dropWhile pyIsSpace) with
    | none => none
    | some s3 =>
      match s3.dropWhile pyIsSpace with
      | ':' :: r => some r
      | _ => none

/-- The lookahead `(?=Lab\s*j\s*:|MARKER:|$)` of the per-item regex,
tested at the suffix `t` of the section: the next sequential label, the
next section's marker (when present in the pattern), end of string, or
the position just before a final newline (Python `$` without
`re.MULTILINE`). -/
def lookaheadOk (lab : List Char) (j : Nat) (m : Option (List Char)) (t : List Char) : Bool :=
  (labelMatch lab j t).isSome ||
  (match m with
   | some mk => (stripPrefixCI mk t).isSome
   | none => false) ||
  t.isEmpty || t == ['\n']

/-- Find the least `k' ≥ k` with the lookahead true at `t.drop k'`,
scanning at most `fuel` positions.  Models the lazy extension of `(.+?)`:
the capture is extended one character at a time until the lookahead
matches. -/
def findEndAux (lab : List Char) (j : Nat) (m : Option (List Char))
    (t : List Char) (k : Nat) : Nat → Nat
  | 0 => k
  | fuel + 1 => if lookaheadOk lab j m (t.drop k) then k else findEndAux lab j m t (k + 1) fuel

/-- The capture of `\s*(.+?)(?=...)` on the text `rest` following the
matched label.  Python first takes the greedy maximal whitespace run for
`\s*`; the lazy `(.+?)` then stops at the first lookahead position (the
lookahead always succeeds at end of string, so a capture exists whenever
a non-whitespace character follows the run).  When `rest` is non-empty
but all whitespace, the engine backtracks `\s*` by one character and the
capture is the final whitespace character. -/
def captureAt (lab : List Char) (j : Nat) (m : Option (List Char))
    (rest : List Char) : Option (List Char) :=
  let w := (rest.takeWhile pyIsSpace).length
  if w < rest.length then
    let t := rest.drop w
    some (t.take (findEndAux lab j m t 1 t.length))
  else if rest.length ≠ 0 then
    some (rest.drop (rest.length - 1))
  else none

/-- `re.search` for the item pattern
`Lab\s*i\s*:\s*(.+?)(?=Lab\s*(i+1)\s*:|MARKER:|$)`: scan left to right
for the first position at which the whole pattern matches and return the
captured group. -/
def regexSearchItem (lab : List Char) (i : Nat) (m : Option (List Char)) :
    List Char → Option (List Char)
  | [] => none
  | c :: cs =>
    match labelMatch lab i (c :: cs) with
    | some rest =>
      match captureAt lab (i + 1) m rest with
      | some cap => some cap
      | none => regexSearchItem lab i m cs
    | none => regexSearchItem lab i m cs

/-- Python `str.split()` (no argument): split on whitespace runs,
dropping empty pieces.  `acc` holds the current word reversed. -/
def splitWsAux : List Char → List Char → List (List Char)
  | [], acc => if acc.isEmpty then [] else [acc.reverse]
  | c :: cs, acc =>
    if pyIsSpace c then
      if acc.isEmpty then splitWsAux cs [] else acc.reverse :: splitWsAux cs []
    else splitWsAux cs (c :: acc)

/-- Python `str.split()` on whitespace. -/
def splitWs (s : List Char) : List (List Char) := splitWsAux s []

/-- `' '.join(s.strip().split())`: the whitespace normalisation applied
to every captured item (the `strip` is subsumed by `split`). -/
def pyNormalize (s : List Char) : List Char := List.intercalate [' '] (splitWs s)

/-- One iteration of a per-section parsing loop of
`parse_gemini_response` (`for i in range(1, count+1)`): search for item
`i`, normalise, apply the minimum-length filter, append when it passes. -/
def parseSectionStep (lab : List Char) (m : Option (List Char)) (minLen : Nat)
    (sec : List Char) (acc : List (List Char)) (i : Nat) : List (List Char) :=
  match regexSearchItem lab i m sec with
  | some cap =>
    let content := pyNormalize cap
    if minLen < content.length then acc ++ [content] else acc
  | none => acc

/-- A per-section parsing loop of `parse_gemini_response`: label indices
`1` to `count`. -/
def parseSection (lab : List Char) (m : Option (List Char)) (minLen : Nat)
    (sec : List Char) (count : Nat) : List (List Char) :=
  (List.range count).foldl (fun acc k => parseSectionStep lab m minLen sec acc (k + 1)) []

/-- `"TITLES:"` (7 characters). -/
def titlesMarker : List Char := "TITLES:".toList

/-- `"DESCRIPTIONS:"` (13 characters). -/
def descMarker : List Char := "DESCRIPTIONS:".toList

/-- `"BULLETS:"` (8 characters). -/
def bulletsMarker : List Char := "BULLETS:".toList

/-- The titles section slice: from just after `TITLES:` to the first
`DESCRIPTIONS:` when present, else to the end (`server.py` lines
435-438).  Marker positions come from `find` on the upper-cased text,
slicing happens on the original text. -/
def titlesSection (text : List Char) : List Char :=
  match strFind titlesMarker (upperOf text), strFind descMarker (upperOf text) with
  | some ts, some d => pySlice text (ts + 7) d
  | some ts, none => text.drop (ts + 7)
  | none, _ => []

/-- The descriptions section slice: from just after `DESCRIPTIONS:` to
the first `BULLETS:` when present, else to the end; empty when the
descriptions marker is absent (`server.py` lines 440-445). -/
def descSection (text : List Char) : List Char :=
  match strFind descMarker (upperOf text), strFind bulletsMarker (upperOf text) with
  | some d, some b => pySlice text (d + 13) b
  | some d, none => text.drop (d + 13)
  | none, _ => []

/-- The bullets section slice: from just after `BULLETS:` to the end of
the text; empty when the bullets marker is absent (`server.py` lines
447-450).  Note this does not depend on the descriptions marker. -/
def bulletsSection (text : List Char) : List Char :=
  match strFind bulletsMarker (upperOf text) with
  | some b => text.drop (b + 8)
  | none => []

/-- `parse_gemini_response(response_text, title_count, desc_count,
bullet_count)` (`server.py` lines 414-486): returns `([], [], [])`
immediately when `TITLES:` is not found in the upper-cased text, else
slices the three sections and runs the three per-item loops.  The
lookahead marker is `DESCRIPTIONS:` for titles, `BULLETS:` for
descriptions and nothing for bullets; the minimum lengths are 10, 20 and
10. -/
def parse_gemini_response (text : List Char) (tc dc bc : Nat) :
    List (List Char) × List (List Char) × List (List Char) :=
  match strFind titlesMarker (upperOf text) with
  | none => ([], [], [])
  | some _ =>
    (parseSection "Title".toList (some descMarker) 10 (titlesSection text) tc,
     parseSection "Description".toList (some bulletsMarker) 20 (descSection text) dc,
     parseSection "Bullet".toList none 10 (bulletsSection text) bc)

/-- The body of `parse_gemini_response` transcribed into the exception
monad: the Python body is wrapped in `try/except`, and every primitive
it uses (`str.upper`, `str.find`, slicing, `re.search` with a
well-formed pattern, `len`, `str.split`, `str.join`) is total, so the
transcription contains no `throw` site. -/
def parse_gemini_responseE (text : List Char) (tc dc bc : Nat) :
    Except (List Char) (List (List Char) × List (List Char) × List (List Char)) := do
  match strFind titlesMarker (upperOf text) with
  | none => return ([], [], [])
  | some _ =>
    let titles := parseSection "Title".toList (some descMarker) 10 (titlesSection text) tc
    let descriptions :=
      parseSection "Description".toList (some bulletsMarker) 20 (descSection text) dc
    let bullets := parseSection "Bullet".toList none 10 (bulletsSection text) bc
    return (titles, descriptions, bullets)

/-- Placeholder `f"Generated Title {n}"` (`server.py` line 173). -/
def titlePlaceholder (n : Nat) : List Char := "Generated Title ".toList ++ natChars n

/-- Placeholder `f"Generated Description {n}"` (`server.py` line 175). -/
def descPlaceholder (n : Nat) : List Char := "Generated Description ".toList ++ natChars n

/-- Placeholder `f"Generated Bullet Point {n}"` (`server.py` line 177). -/
def bulletPlaceholder (n : Nat) : List Char := "Generated Bullet Point ".toList ++ natChars n

/-- The padding loop `while len(l) < count: l.append(mk(len(l)+1))`
(`server.py` lines 172-177). -/
def padWith (mk : Nat → List Char) (l : List (List Char)) (count : Nat) :
    List (List Char) :=
  l ++ (List.range (count - l.length)).map (fun k => mk (l.length + k + 1))

/-- The result dictionary built by `generate_via_gemini` (`server.py`
lines 186-191). -/
structure Envelope where
  success : Bool
  titles : List (List Char)
  descriptions : List (List Char)
  bullets : List (List Char)
  deriving Repr, DecidableEq

/-- The return statement of `generate_via_gemini` (lines 186-191):
`success` is the disjunction of the non-emptiness of the three lists as
they stand at the return (after padding on the normal path), and the
lists are truncated to the requested counts. -/
def assembleEnvelope (titles descriptions bullets : List (List Char))
    (tc dc bc : Nat) : Envelope :=
  { success := !titles.isEmpty || !descriptions.isEmpty || !bullets.isEmpty
    titles := titles.take tc
    descriptions := descriptions.take dc
    bullets := bullets.take bc }

/-- The pure tail of `generate_via_gemini` on the path with no
exception, which by the guard of `server.py` lines 152-153 (`if not
response_text: raise ...`) is only reached with a non-empty response
text: parse the response text, pad each list with placeholders up to
its requested count, and assemble the envelope (`server.py` lines
156-191). -/
def generate_via_gemini_ok (text : List Char) (tc dc bc : Nat) : Envelope :=
  let parsed := parse_gemini_response text tc dc bc
  assembleEnvelope (padWith titlePlaceholder parsed.1 tc)
    (padWith descPlaceholder parsed.2.1 dc)
    (padWith bulletPlaceholder parsed.2.2 bc) tc dc bc

/-- The return of `generate_via_gemini` on the path where an exception
interrupted the generation steps: the inner `except` (line 179) swallows
the exception, padding is skipped, and the three lists still hold their
initial value `[]` (lines 111-113), so the envelope is assembled from
empty lists. -/
def generate_via_gemini_exn (tc dc bc : Nat) : Envelope :=
  assembleEnvelope [] [] [] tc dc bc

/-- `generate_via_gemini` from the response-text guard onwards
(`server.py` lines 152-191): an empty response text raises at line 153,
the inner `except` (line 179) swallows that exception before any
padding ran, and the still-empty lists reach the return; a non-empty
response text continues with the parse/pad tail. -/
def generate_via_gemini_run (text : List Char) (tc dc bc : Nat) : Envelope :=
  if text.isEmpty then generate_via_gemini_exn tc dc bc
  else generate_via_gemini_ok text tc dc bc

/-- An HTTP response of the `/generate` endpoint: status code, the
`GenerationResult`-shaped body, and its optional `error` string. -/
structure HttpResponse where
  status : Nat
  body : Envelope
  error : Option (List Char)
  deriving Repr, DecidableEq

/-- The `generate_content` endpoint (`server.py` lines 51-82), as a
function of the outcome of `await generate_via_gemini(request)`: on a
normal return, status 200 when `result["success"]` else 500, body the
result dictionary unchanged (no `error` key in either case); on an
exception escaping the call, status 500 with empty lists and the error
string. -/
def generate_content (outcome : Except (List Char) Envelope) : HttpResponse :=
  match outcome with
  | .ok r => if r.success then ⟨200, r, none⟩ else ⟨500, r, none⟩
  | .error e => ⟨500, ⟨false, [], [], []⟩, some e⟩

/-! ### Basic lemmas about the assembler and the per-section loops -/

theorem length_padWith (mk : Nat → List Char) (l : List (List Char)) (c : Nat) :
    (padWith mk l c).length = l.length + (c - l.length) := by
  simp [padWith]

theorem regexSearchItem_nil (lab : List Char) (i : Nat) (m : Option (List Char)) :
    regexSearchItem lab i m [] = none := rfl

theorem parseSection_succ (lab : List Char) (m : Option (List Char)) (n : Nat)
    (sec : List Char) (c : Nat) :
    parseSection lab m n sec (c + 1) =
      parseSectionStep lab m n sec (parseSection lab m n sec c) (c + 1) := by
  unfold parseSection
  rw [List.range_succ, List.foldl_append]
  rfl

theorem parseSection_nil (lab : List Char) (m : Option (List Char)) (n : Nat) :
    ∀ c, parseSection lab m n [] c = []
  | 0 => rfl
  | c + 1 => by
    rw [parseSection_succ, parseSection_nil lab m n c]
    simp [parseSectionStep, regexSearchItem_nil]

theorem parseSectionStep_length_le (lab : List Char) (m : Option (List Char)) (n : Nat)
    (sec : List Char) (acc : List (List Char)) (i : Nat) :
    (parseSectionStep lab m n sec acc i).length ≤ acc.length + 1 := by
  unfold parseSectionStep
  cases regexSearchItem lab i m sec with
  | none => simp
  | some cap =>
    simp only
    split
    · simp
    · simp

theorem parseSection_length_le (lab : List Char) (m : Option (List Char)) (n : Nat)
    (sec : List Char) : ∀ c, (parseSection lab m n sec c).length ≤ c
  | 0 => by simp [parseSection]
  | c + 1 => by
    rw [parseSection_succ]
    have h1 := parseSectionStep_length_le lab m n sec (parseSection lab m n sec c) (c + 1)
    have h2 := parseSection_length_le lab m n sec c
    omega

theorem padWith_eq_nil (mk : Nat → List Char) (l : List (List Char)) (c : Nat) :
    padWith mk l c = [] ↔ l = [] ∧ c = 0 := by
  constructor
  · intro h
    have hlen := congrArg List.length h
    rw [length_padWith, List.length_nil] at hlen
    exact ⟨List.eq_nil_of_length_eq_zero (by omega), by omega⟩
  · rintro ⟨rfl, rfl⟩
    rfl

/-- Each component of `parse_gemini_response` never exceeds its requested
count: each label index is tried once and contributes at most one item. -/
theorem parse_length_le (text : List Char) (tc dc bc : Nat) :
    (parse_gemini_response text tc dc bc).1.length ≤ tc ∧
    (parse_gemini_response text tc dc bc).2.1.length ≤ dc ∧
    (parse_gemini_response text tc dc bc).2.2.length ≤ bc := by
  unfold parse_gemini_response
  cases strFind titlesMarker (upperOf text) with
  | none => simp
  | some ts => exact ⟨parseSection_length_le _ _ _ _ tc, parseSection_length_le _ _ _ _ dc,
      parseSection_length_le _ _ _ _ bc⟩

theorem take_padWith_nonempty_iff (mk : Nat → List Char) (p : List (List Char)) (c : Nat)
    (hp : p.length ≤ c) : (padWith mk p c).take c ≠ [] ↔ 0 < c := by
  rw [← List.length_pos_iff_ne_nil, List.length_take, length_padWith]
  omega

theorem padWith_nonempty_iff (mk : Nat → List Char) (p : List (List Char)) (c : Nat)
    (hp : p.length ≤ c) : padWith mk p c ≠ [] ↔ 0 < c := by
  rw [← List.length_pos_iff_ne_nil, length_padWith]
  omega

/-! ### Claim theorems: envelope assembly and the HTTP layer -/

/-- A non-empty response text containing none of the three section
markers (so it passes the non-empty guard of lines 152-153, and the
parser then returns three empty lists). -/
def noMarkersText : List Char :=
  "plain response text without any section markers".toList

/-- C1, counterexample: for a non-empty response text without the
`TITLES:` marker and positive requested counts the parser returns three
empty lists, but the padding loops run *before* the success flag is
computed (lines 172-177 precede line 187), so all three lists are
non-empty placeholder lists at the return and `success` is `true`, not
`false` as the claim's pre-padding reading states. -/
theorem claim_C1_counterexample :
    noMarkersText ≠ [] ∧
    parse_gemini_response noMarkersText 5 5 8 = ([], [], []) ∧
    (generate_via_gemini_run noMarkersText 5 5 8).success = true := by
  refine ⟨by decide, ?_, by decide⟩
  decide

theorem success_ok_iff (text : List Char) (tc dc bc : Nat) :
    (generate_via_gemini_ok text tc dc bc).success = true ↔
      (0 < tc ∨ 0 < dc ∨ 0 < bc) := by
  obtain ⟨h1, h2, h3⟩ := parse_length_le text tc dc bc
  unfold generate_via_gemini_ok assembleEnvelope
  simp only [Bool.or_eq_true, Bool.not_eq_true', List.isEmpty_eq_false]
  rw [padWith_nonempty_iff _ _ _ h1, padWith_nonempty_iff _ _ _ h2,
    padWith_nonempty_iff _ _ _ h3]
  tauto

/-- C1, amended: `success` is the disjunction of the non-emptiness of
the three lists *after* placeholder padding.  For a non-empty response
text (the only way past the guard of lines 152-153 into the parse/pad
tail) it holds exactly when at least one requested count is positive,
independently of what was parsed; an empty response text instead raises
at line 153, skips the padding, and is returned with `success = false`.
-/
theorem claim_C1_amended (text : List Char) (tc dc bc : Nat) (hne : text ≠ []) :
    ((generate_via_gemini_run text tc dc bc).success = true ↔
      (0 < tc ∨ 0 < dc ∨ 0 < bc)) ∧
    (generate_via_gemini_run [] tc dc bc).success = false := by
  constructor
  · unfold generate_via_gemini_run
    rw [if_neg (by simpa using hne)]
    exact success_ok_iff text tc dc bc
  · rfl

theorem claim_C1_amended_witness :
    noMarkersText ≠ [] ∧
    (((generate_via_gemini_run noMarkersText 2 0 0).success = true ↔
      (0 < 2 ∨ 0 < 0 ∨ 0 < 0)) ∧
     (generate_via_gemini_run [] 2 0 0).success = false) :=
  ⟨by decide, claim_C1_amended noMarkersText 2 0 0 (by decide)⟩

/-- C2, counterexample: on the exception path the padding loops are
skipped (they live inside the `try`), so the returned titles list is
empty rather than of length `title_count = 5`. -/
theorem claim_C2_counterexample :
    (generate_via_gemini_exn 5 5 8).titles.length ≠ 5 := by decide

/-- C2, amended: on the no-exception path every returned list has
exactly the requested length (padding up, truncation down); on the
exception path the three lists are returned empty, so their lengths are
0, not the requested counts. -/
theorem claim_C2_amended (text : List Char) (tc dc bc : Nat) :
    ((generate_via_gemini_ok text tc dc bc).titles.length = tc ∧
     (generate_via_gemini_ok text tc dc bc).descriptions.length = dc ∧
     (generate_via_gemini_ok text tc dc bc).bullets.length = bc) ∧
    ((generate_via_gemini_exn tc dc bc).titles = [] ∧
     (generate_via_gemini_exn tc dc bc).descriptions = [] ∧
     (generate_via_gemini_exn tc dc bc).bullets = []) := by
  refine ⟨⟨?_, ?_, ?_⟩, ⟨?_, ?_, ?_⟩⟩ <;>
    simp [generate_via_gemini_ok, generate_via_gemini_exn, assembleEnvelope,
      List.length_take, length_padWith] <;>
    omega

/-- C3, counterexample: when `generate_via_gemini` returns normally with
`success = false` (e.g. all generation steps failed and the inner
handler swallowed the exception), the endpoint returns 500 with the
result dictionary as the body, and that body has no `error` field
(`server.py` line 70), contradicting the claim's "with a body ... that
additionally contains an `error` string". -/
theorem claim_C3_counterexample :
    (generate_content (Except.ok (generate_via_gemini_exn 5 5 8))).status = 500 ∧
    (generate_content (Except.ok (generate_via_gemini_exn 5 5 8))).error = none := by
  exact ⟨rfl, rfl⟩

/-- C3, amended: the endpoint returns 200 exactly when at least one of
the returned lists is non-empty (on a normal return of the generation
call), and 500 otherwise; the body only carries an `error` string when
an exception escaped the generation call, in which case the lists are
empty — a 500 produced from a `success = false` result has the same
shape without an `error` field. -/
theorem claim_C3_amended (text : List Char) (tc dc bc : Nat) (msg : List Char) :
    (let r := generate_content (Except.ok (generate_via_gemini_ok text tc dc bc))
     (r.status = 200 ∨ r.status = 500) ∧ r.error = none ∧
      (r.status = 200 ↔
        (r.body.titles ≠ [] ∨ r.body.descriptions ≠ [] ∨ r.body.bullets ≠ []))) ∧
    (let re := generate_content (Except.error msg)
     re.status = 500 ∧ re.error = some msg ∧
      re.body.titles = [] ∧ re.body.descriptions = [] ∧ re.body.bullets = []) := by
  refine ⟨?_, ⟨rfl, rfl, rfl, rfl, rfl⟩⟩
  obtain ⟨h1, h2, h3⟩ := parse_length_le text tc dc bc
  have hT : (generate_via_gemini_ok text tc dc bc).titles ≠ [] ↔ 0 < tc :=
    take_padWith_nonempty_iff _ _ _ h1
  have hD : (generate_via_gemini_ok text tc dc bc).descriptions ≠ [] ↔ 0 < dc :=
    take_padWith_nonempty_iff _ _ _ h2
  have hB : (generate_via_gemini_ok text tc dc bc).bullets ≠ [] ↔ 0 < bc :=
    take_padWith_nonempty_iff _ _ _ h3
  have hS := success_ok_iff text tc dc bc
  show (_ ∧ _ ∧ _)
  simp only [generate_content]
  by_cases hs : (generate_via_gemini_ok text tc dc bc).success = true
  · rw [if_pos hs]
    refine ⟨Or.inl rfl, rfl, ?_⟩
    simp only [true_iff]
    rcases hS.mp hs with h | h | h
    · exact Or.inl (hT.mpr h)
    · exact Or.inr (Or.inl (hD.mpr h))
    · exact Or.inr (Or.inr (hB.mpr h))
  · rw [if_neg hs]
    refine ⟨Or.inr rfl, rfl, ?_⟩
    constructor
    · intro h; simp at h
    · rintro (h | h | h)
      · exact absurd (hS.mpr (Or.inl (hT.mp h))) hs
      · exact absurd (hS.mpr (Or.inr (Or.inl (hD.mp h)))) hs
      · exact absurd (hS.mpr (Or.inr (Or.inr (hB.mp h)))) hs

/-- C4: the body of `parse_gemini_response`, transcribed into the
exception monad with every primitive total, never produces an error:
for every input it returns `Except.ok` of the pure parser's result, so
the `except` handler of the Python function (which would return the
lists accumulated so far) is unreachable and the parser never raises. -/
theorem claim_C4 (text : List Char) (tc dc bc : Nat) :
    parse_gemini_responseE text tc dc bc =
      Except.ok (parse_gemini_response text tc dc bc) := by
  unfold parse_gemini_responseE parse_gemini_response
  cases strFind titlesMarker (upperOf text) <;> rfl

/-- C8: when the titles marker does not occur (case-insensitively) in
the input, `parse_gemini_response` returns three empty lists
immediately, whatever the other markers and counts are. -/
theorem claim_C8 (text : List Char) (tc dc bc : Nat)
    (h : strFind titlesMarker (upperOf text) = none) :
    parse_gemini_response text tc dc bc = ([], [], []) := by
  unfold parse_gemini_response
  rw [h]

/-- A text containing the descriptions and bullets markers but no
`TITLES:` marker. -/
def noTitlesText : List Char := "DESCRIPTIONS:\nBULLETS:\nBullet 1: no titles anchor here\n".toList

theorem claim_C8_witness :
    strFind titlesMarker (upperOf noTitlesText) = none ∧
    parse_gemini_response noTitlesText 5 5 8 = ([], [], []) :=
  ⟨by decide, claim_C8 noTitlesText 5 5 8 (by decide)⟩

/-- C9: the parser returns at most the requested number of items per
section, and consequently the truncation built into the envelope never
discards a parsed item: each parsed list is a prefix of the
corresponding (padded, truncated) list of the envelope. -/
theorem claim_C9 (text : List Char) (tc dc bc : Nat) :
    ((parse_gemini_response text tc dc bc).1.length ≤ tc ∧
     (parse_gemini_response text tc dc bc).2.1.length ≤ dc ∧
     (parse_gemini_response text tc dc bc).2.2.length ≤ bc) ∧
    ((generate_via_gemini_ok text tc dc bc).titles.take
        (parse_gemini_response text tc dc bc).1.length =
      (parse_gemini_response text tc dc bc).1 ∧
     (generate_via_gemini_ok text tc dc bc).descriptions.take
        (parse_gemini_response text tc dc bc).2.1.length =
      (parse_gemini_response text tc dc bc).2.1 ∧
     (generate_via_gemini_ok text tc dc bc).bullets.take
        (parse_gemini_response text tc dc bc).2.2.length =
      (parse_gemini_response text tc dc bc).2.2) := by
  obtain ⟨h1, h2, h3⟩ := parse_length_le text tc dc bc
  refine ⟨⟨h1, h2, h3⟩, ?_, ?_, ?_⟩ <;>
    · show (List.take _ (padWith _ _ _)).take _ = _
      rw [List.take_take, Nat.min_eq_left (by omega), padWith, List.take_left]

/-- C10: when the first occurrence of `DESCRIPTIONS:` precedes the first
occurrence of `TITLES:`, the titles slice has its end before its start
and is therefore empty, so no titles are parsed, while descriptions and
bullets are still extracted from their own first-occurrence slices. -/
theorem claim_C10 (text : List Char) (tc dc bc t d : Nat)
    (ht : strFind titlesMarker (upperOf text) = some t)
    (hd : strFind descMarker (upperOf text) = some d) (hlt : d < t) :
    parse_gemini_response text tc dc bc =
      ([],
       parseSection "Description".toList (some bulletsMarker) 20 (descSection text) dc,
       parseSection "Bullet".toList none 10 (bulletsSection text) bc) := by
  unfold parse_gemini_response
  rw [ht]
  have hsec : titlesSection text = [] := by
    unfold titlesSection
    rw [ht, hd]
    show pySlice text (t + 7) d = []
    unfold pySlice
    rw [show d - (t + 7) = 0 from by omega]
    simp
  rw [hsec, parseSection_nil]

/-- A text in which `DESCRIPTIONS:` (index 0) precedes `TITLES:`
(index 73). -/
def descFirstText : List Char :=
  "DESCRIPTIONS:\nDescription 1: This product description is long enough yes\nTITLES:\nTitle 1: Good Product Name\n".toList

theorem claim_C10_witness :
    (strFind titlesMarker (upperOf descFirstText) = some 73 ∧
     strFind descMarker (upperOf descFirstText) = some 0) ∧
    parse_gemini_response descFirstText 1 1 1 =
      ([],
       parseSection "Description".toList (some bulletsMarker) 20 (descSection descFirstText) 1,
       parseSection "Bullet".toList none 10 (bulletsSection descFirstText) 1) :=
  ⟨⟨by decide, by decide⟩,
   claim_C10 descFirstText 1 1 1 73 0 (by decide) (by decide) (by decide)⟩

/-- A text containing `TITLES:` and `BULLETS:` but no `DESCRIPTIONS:`. -/
def noDescText : List Char :=
  "TITLES:\nTitle 1: Wonderful Product Here\nBULLETS:\nBullet 1: Great battery life ok\n".toList

/-- C7, counterexample: with `TITLES:` and `BULLETS:` present but
`DESCRIPTIONS:` missing, the bullets section is *not* empty: the bullets
slice is computed from the first occurrence of `BULLETS:` independently
of the descriptions marker (`server.py` line 447), so a bullet is still
parsed. -/
theorem claim_C7_counterexample :
    strFind descMarker (upperOf noDescText) = none ∧
    strFind bulletsMarker (upperOf noDescText) = some 40 ∧
    (parse_gemini_response noDescText 1 1 1).2.2 = ["Great battery life ok".toList] := by
  refine ⟨by decide, by decide, ?_⟩
  decide

/-- A text containing `TITLES:` and `DESCRIPTIONS:` but no `BULLETS:`. -/
def noBulletsText : List Char :=
  "TITLES:\nTitle 1: Wonderful Product Here\nDESCRIPTIONS:\nDescription 1: A nicely long product description\n".toList

/-- C7, amended: when a marker other than `TITLES:` is missing, only
that marker's *own* section is empty; every section whose marker is
present is still parsed from its own first-occurrence slice.  With
`DESCRIPTIONS:` missing, descriptions are empty while titles and
bullets are parsed from their own slices; with `BULLETS:` missing,
bullets are empty while titles and descriptions are parsed from their
own slices. -/
theorem claim_C7_amended (text : List Char) (tc dc bc t0 : Nat)
    (hT : strFind titlesMarker (upperOf text) = some t0) :
    (strFind descMarker (upperOf text) = none →
      parse_gemini_response text tc dc bc =
        (parseSection "Title".toList (some descMarker) 10 (titlesSection text) tc,
         [],
         parseSection "Bullet".toList none 10 (bulletsSection text) bc)) ∧
    (strFind bulletsMarker (upperOf text) = none →
      parse_gemini_response text tc dc bc =
        (parseSection "Title".toList (some descMarker) 10 (titlesSection text) tc,
         parseSection "Description".toList (some bulletsMarker) 20 (descSection text) dc,
         [])) := by
  constructor
  · intro hD
    unfold parse_gemini_response
    rw [hT]
    have hsec : descSection text = [] := by
      unfold descSection
      rw [hD]
    rw [hsec, parseSection_nil]
  · intro hB
    unfold parse_gemini_response
    rw [hT]
    have hsec : bulletsSection text = [] := by
      unfold bulletsSection
      rw [hB]
    rw [hsec, parseSection_nil]

set_option maxRecDepth 8192 in
theorem claim_C7_amended_witness :
    (parse_gemini_response noDescText 2 3 4 =
      (parseSection "Title".toList (some descMarker) 10 (titlesSection noDescText) 2,
       [],
       parseSection "Bullet".toList none 10 (bulletsSection noDescText) 4)) ∧
    (parse_gemini_response noBulletsText 2 3 4 =
      (parseSection "Title".toList (some descMarker) 10 (titlesSection noBulletsText) 2,
       parseSection "Description".toList (some bulletsMarker) 20
         (descSection noBulletsText) 3,
       [])) :=
  ⟨(claim_C7_amended noDescText 2 3 4 0 (by decide)).1 (by decide),
   (claim_C7_amended noBulletsText 2 3 4 0 (by decide)).2 (by decide)⟩

/-! ### Character-level lemmas -/

theorem charToNat_ofNat (n : Nat) (h : n < 55296) : (Char.ofNat n).toNat = n := by
  have hv : Nat.isValidChar n := Or.inl h
  rw [Char.ofNat, dif_pos hv]
  simp [Char.ofNatAux, Char.toNat, UInt32.toNat, BitVec.toNat_ofNatLt]

theorem charToNat_inj {c d : Char} (h : c.toNat = d.toNat) : c = d := by
  apply Char.eq_of_val_eq
  exact UInt32.ext h

theorem lowChar_toNat_of_lt {c : Char} (h : c.toNat < 65) : (lowChar c).toNat = c.toNat := by
  unfold lowChar
  rw [if_neg (by omega)]

theorem lowChar_eq_colon {c : Char} (h : lowChar c = ':') : c = ':' := by
  unfold lowChar at h
  split at h
  · have := congrArg Char.toNat h
    rw [charToNat_ofNat _ (by omega)] at this
    have : (':' : Char).toNat = 58 := by decide
    omega
  · exact h

theorem upChar_eq_colon {c : Char} (h : upChar c = ':') : c = ':' := by
  unfold upChar at h
  split at h
  · have hrange : 65 ≤ c.toNat - 32 ∧ c.toNat - 32 ≤ 90 := by omega
    have := congrArg Char.toNat h
    rw [charToNat_ofNat _ (by omega)] at this
    have : (':' : Char).toNat = 58 := by decide
    omega
  · exact h

theorem upChar_eq_nl {c : Char} (h : upChar c = '\n') : c = '\n' := by
  unfold upChar at h
  split at h
  · have := congrArg Char.toNat h
    rw [charToNat_ofNat _ (by omega)] at this
    have : ('\n' : Char).toNat = 10 := by decide
    omega
  · exact h

theorem upChar_of_lt {c : Char} (h : c.toNat < 97) : upChar c = c := by
  unfold upChar
  rw [if_neg (by omega)]

theorem pyIsSpace_toNat {c : Char} (h : pyIsSpace c = true) : c.toNat ≤ 32 := by
  simp only [pyIsSpace, Bool.or_eq_true, decide_eq_true_eq] at h
  rcases h with ((((h | h) | h) | h) | h) | h <;> subst h <;> decide

theorem colon_notMem_upperOf {t : List Char} (h : ':' ∉ t) : ':' ∉ upperOf t := by
  intro hmem
  obtain ⟨c, hc, hceq⟩ := List.mem_map.mp hmem
  exact h (upChar_eq_colon hceq ▸ hc)

theorem nl_notMem_upperOf {t : List Char} (h : '\n' ∉ t) : '\n' ∉ upperOf t := by
  intro hmem
  obtain ⟨c, hc, hceq⟩ := List.mem_map.mp hmem
  exact h (upChar_eq_nl hceq ▸ hc)

/-! ### Decimal rendering lemmas -/

theorem natCharsAux_eq : ∀ (fuel n : Nat), n ≤ fuel →
    natCharsAux fuel n = ((Nat.digits 10 n).reverse).map digitChar
  | 0, n, h => by
    have : n = 0 := by omega
    subst this
    simp [natCharsAux]
  | fuel + 1, n, h => by
    unfold natCharsAux
    by_cases hn : n = 0
    · subst hn; simp
    · rw [if_neg hn]
      rw [natCharsAux_eq fuel (n / 10) (by
        have hlt : n / 10 < n := Nat.div_lt_self (Nat.pos_of_ne_zero hn) (by omega)
        omega)]
      rw [Nat.digits_def' (by omega : 1 < 10) (Nat.pos_of_ne_zero hn)]
      simp

theorem natChars_eq {n : Nat} (h : n ≠ 0) :
    natChars n = ((Nat.digits 10 n).reverse).map digitChar := by
  unfold natChars
  rw [if_neg h, natCharsAux_eq _ _ (by omega)]

theorem natChars_ne_nil (n : Nat) : natChars n ≠ [] := by
  by_cases h : n = 0
  · subst h; decide
  · rw [natChars_eq h]
    simp [Nat.digits_ne_nil_iff_ne_zero, h]

theorem digitChar_range {d : Nat} (h : d < 10) :
    48 ≤ (digitChar d).toNat ∧ (digitChar d).toNat ≤ 57 := by
  interval_cases d <;> decide

theorem natChars_mem_range {n : Nat} : ∀ c ∈ natChars n, 48 ≤ c.toNat ∧ c.toNat ≤ 57 := by
  intro c hc
  by_cases h : n = 0
  · subst h
    simp [natChars] at hc
    subst hc; decide
  · rw [natChars_eq h] at hc
    obtain ⟨d, hd, rfl⟩ := List.mem_map.mp hc
    exact digitChar_range (Nat.digits_lt_base (by omega) (List.mem_reverse.mp hd))

theorem digitChar_inj {a b : Nat} (ha : a < 10) (hb : b < 10)
    (h : digitChar a = digitChar b) : a = b := by
  interval_cases a <;> interval_cases b <;> simp_all <;> exact absurd h (by decide)

theorem natChars_inj {i j : Nat} (hi : i ≠ 0) (hj : j ≠ 0)
    (h : natChars i = natChars j) : i = j := by
  rw [natChars_eq hi, natChars_eq hj] at h
  have hmap : ∀ (xs ys : List Nat), (∀ x ∈ xs, x < 10) → (∀ y ∈ ys, y < 10) →
      xs.map digitChar = ys.map digitChar → xs = ys := by
    intro xs
    induction xs with
    | nil => intro ys _ _ h; cases ys <;> simp_all
    | cons x xs ih =>
      intro ys hxs hys h
      cases ys with
      | nil => simp_all
      | cons y ys =>
        simp only [List.map_cons, List.cons.injEq] at h
        have hx := digitChar_inj (hxs x (by simp)) (hys y (by simp)) h.1
        subst hx
        rw [ih ys (fun a ha => hxs a (by simp [ha])) (fun a ha => hys a (by simp [ha])) h.2]
  have hrev := hmap _ _
    (fun x hx => Nat.digits_lt_base (by omega) (List.mem_reverse.mp hx))
    (fun y hy => Nat.digits_lt_base (by omega) (List.mem_reverse.mp hy)) h
  have := List.reverse_injective hrev
  have h2 := congrArg (Nat.ofDigits 10) this
  rwa [Nat.ofDigits_digits, Nat.ofDigits_digits] at h2

/-! ### Strip-prefix and label-match lemmas -/

theorem not_space_of_toNat {c : Char} (h : 32 < c.toNat) : pyIsSpace c = false := by
  cases hp : pyIsSpace c
  · rfl
  · have := pyIsSpace_toNat hp
    omega

theorem stripPrefixCI_self_append (W z : List Char) :
    stripPrefixCI W (W ++ z) = some z := by
  induction W with
  | nil => rfl
  | cons w ws ih => simp [stripPrefixCI, ih]

theorem stripPrefixExact_some_iff (p : List Char) : ∀ (s r : List Char),
    stripPrefixExact p s = some r ↔ s = p ++ r := by
  induction p with
  | nil => intro s r; simp [stripPrefixExact]
  | cons x xs ih =>
    intro s r
    cases s with
    | nil => simp [stripPrefixExact]
    | cons c cs =>
      simp only [stripPrefixExact]
      by_cases hc : c = x
      · subst hc
        rw [if_pos rfl, ih]
        simp
      · rw [if_neg hc]
        simp [hc]

theorem stripPrefixCI_some_decomp {p : List Char} : ∀ {s r : List Char},
    stripPrefixCI p s = some r →
    ∃ l1, s = l1 ++ r ∧ List.Forall₂ (fun pc c => lowChar c = lowChar pc) p l1 := by
  induction p with
  | nil =>
    intro s r h
    simp only [stripPrefixCI, Option.some.injEq] at h
    exact ⟨[], by simp [h], List.Forall₂.nil⟩
  | cons x xs ih =>
    intro s r h
    cases s with
    | nil => simp [stripPrefixCI] at h
    | cons c cs =>
      simp only [stripPrefixCI] at h
      split at h
      · obtain ⟨l1, hcs, hfa⟩ := ih h
        exact ⟨c :: l1, by simp [hcs], List.Forall₂.cons (by assumption) hfa⟩
      · exact absurd h (by simp)

theorem labelMatch_none_head {w0 : Char} {W' : List Char} (i : Nat) {c : Char}
    (s : List Char) (h : lowChar c ≠ lowChar w0) :
    labelMatch (w0 :: W') i (c :: s) = none := by
  unfold labelMatch
  simp [stripPrefixCI, h]

theorem dropWhile_cons_of_space {c : Char} (h : pyIsSpace c = true) (l : List Char) :
    (c :: l).dropWhile pyIsSpace = l.dropWhile pyIsSpace := by
  simp [List.dropWhile_cons, h]

theorem dropWhile_of_head_not_space {c : Char} (h : pyIsSpace c = false) (l : List Char) :
    (c :: l).dropWhile pyIsSpace = c :: l := by
  simp [List.dropWhile_cons, h]

theorem dropWhile_natChars_append (i : Nat) (z : List Char) :
    (natChars i ++ z).dropWhile pyIsSpace = natChars i ++ z := by
  cases hn : natChars i with
  | nil => exact absurd hn (natChars_ne_nil i)
  | cons c0 cs =>
    have hc0 : 48 ≤ c0.toNat ∧ c0.toNat ≤ 57 := natChars_mem_range c0 (by rw [hn]; simp)
    simp only [List.cons_append]
    exact dropWhile_of_head_not_space (not_space_of_toNat (by omega)) _

theorem labelMatch_eq (lab : List Char) (i : Nat) (s : List Char) :
    labelMatch lab i s =
      (stripPrefixCI lab s).bind fun s1 =>
        (stripPrefixExact (natChars i) (s1.dropWhile pyIsSpace)).bind fun s3 =>
          match s3.dropWhile pyIsSpace with
          | ':' :: r => some r
          | _ => none := by
  unfold labelMatch
  cases stripPrefixCI lab s with
  | none => rfl
  | some s1 =>
    simp only [Option.some_bind]
    cases stripPrefixExact (natChars i) (s1.dropWhile pyIsSpace) <;> rfl

theorem labelMatch_hit (W : List Char) (i : Nat) (z : List Char) :
    labelMatch W i (W ++ ' ' :: (natChars i ++ ':' :: z)) = some z := by
  rw [labelMatch_eq, stripPrefixCI_self_append, Option.some_bind,
    dropWhile_cons_of_space (by decide), dropWhile_natChars_append,
    show stripPrefixExact (natChars i) (natChars i ++ ':' :: z) = some (':' :: z) from
      (stripPrefixExact_some_iff _ _ _).mpr rfl,
    Option.some_bind, dropWhile_of_head_not_space (by decide)]
  rfl

theorem labelMatch_digits_ne {i j : Nat} (hi : i ≠ 0) (hj : j ≠ 0) (hij : i ≠ j)
    (W z : List Char) :
    labelMatch W i (W ++ ' ' :: (natChars j ++ ':' :: z)) = none := by
  rw [labelMatch_eq, stripPrefixCI_self_append, Option.some_bind,
    dropWhile_cons_of_space (by decide), dropWhile_natChars_append]
  cases hstrip : stripPrefixExact (natChars i) (natChars j ++ ':' :: z) with
  | none => rfl
  | some s3 =>
    rw [Option.some_bind]
    rw [stripPrefixExact_some_iff] at hstrip
    by_cases hlen : (natChars i).length ≤ (natChars j).length
    · -- natChars i is a (possibly proper) prefix of natChars j
      have htake : natChars i = (natChars j).take (natChars i).length := by
        have := congrArg (List.take (natChars i).length) hstrip
        rw [List.take_append_of_le_length hlen] at this
        rw [List.take_left] at this
        exact this.symm
      by_cases heq : (natChars i).length = (natChars j).length
      · exfalso
        apply hij
        apply natChars_inj hi hj
        rw [htake, heq, List.take_length]
      · -- proper prefix: s3 starts with a digit, so the colon step fails
        have hdrop := congrArg (List.drop (natChars i).length) hstrip
        rw [List.drop_append_of_le_length hlen, List.drop_left] at hdrop
        cases hd : (natChars j).drop (natChars i).length with
        | nil =>
          exfalso
          have := congrArg List.length hd
          simp at this
          omega
        | cons d ds =>
          have hdmem : d ∈ natChars j := by
            have : d ∈ (natChars j).drop (natChars i).length := by rw [hd]; simp
            exact List.mem_of_mem_drop this
          have hdr : 48 ≤ d.toNat ∧ d.toNat ≤ 57 := natChars_mem_range d hdmem
          rw [hd] at hdrop
          rw [← hdrop]
          simp only [List.cons_append]
          rw [dropWhile_of_head_not_space (not_space_of_toNat (by omega))]
          have hne : d ≠ ':' := by
            intro h
            subst h
            have : (':' : Char).toNat = 58 := by decide
            omega
          split
          · rename_i r heq
            exact absurd (List.head_eq_of_cons_eq heq) hne
          · rfl
    · -- natChars i strictly longer than natChars j: the colon lands inside the digits
      exfalso
      push_neg at hlen
      have htake := congrArg (List.take (natChars j).length) hstrip
      rw [List.take_left] at htake
      rw [List.take_append_of_le_length (by omega)] at htake
      have hdrop := congrArg (List.drop (natChars j).length) hstrip
      rw [List.drop_left] at hdrop
      rw [List.drop_append_of_le_length (by omega)] at hdrop
      cases hd : (natChars i).drop (natChars j).length with
      | nil =>
        have := congrArg List.length hd
        simp at this
        omega
      | cons d ds =>
        rw [hd] at hdrop
        simp only [List.cons_append, List.cons.injEq] at hdrop
        have hdmem : d ∈ natChars i := by
          have : d ∈ (natChars i).drop (natChars j).length := by rw [hd]; simp
          exact List.mem_of_mem_drop this
        have hdr : 48 ≤ d.toNat ∧ d.toNat ≤ 57 := natChars_mem_range d hdmem
        have hd58 : d.toNat = 58 := by rw [← hdrop.1]; decide
        omega

/-! ### Guard lemmas: no label or marker match can start inside an item -/

theorem forall₂_mem_right {R : Char → Char → Prop} :
    ∀ {as bs : List Char}, List.Forall₂ R as bs → ∀ b ∈ bs, ∃ a ∈ as, R a b := by
  intro as bs h
  induction h with
  | nil => intro b hb; cases hb
  | cons hr _ ih =>
    intro b hb
    rcases List.mem_cons.mp hb with rfl | hb
    · exact ⟨_, by simp, hr⟩
    · obtain ⟨a, ha, har⟩ := ih b hb
      exact ⟨a, by simp [ha], har⟩

theorem lowChar_nl_toNat : (lowChar '\n').toNat = 10 := by decide

theorem forall₂_ci_getElem {W l1 : List Char}
    (hfa : List.Forall₂ (fun pc c => lowChar c = lowChar pc) W l1)
    {k : Nat} {x w : Char} (hx : l1[k]? = some x) (hw : W[k]? = some w) :
    lowChar x = lowChar w := by
  obtain ⟨h1, hx'⟩ := List.getElem?_eq_some.mp hx
  obtain ⟨h2, hw'⟩ := List.getElem?_eq_some.mp hw
  have := (List.forall₂_iff_get.mp hfa).2 k h2 h1
  simp only [List.get_eq_getElem] at this
  rw [hx', hw'] at this
  exact this

/-- A case-insensitive literal containing a colon cannot match starting
inside a colon-free region that ends at a newline. -/
theorem stripPrefixCI_none_guarded (M a v : List Char) (pc : Nat)
    (hpc : M[pc]? = some ':')
    (hM : ∀ c ∈ M, (lowChar c).toNat ≠ 10)
    (ha : ':' ∉ a) :
    stripPrefixCI M (a ++ '\n' :: v) = none := by
  cases hsp : stripPrefixCI M (a ++ '\n' :: v) with
  | none => rfl
  | some r =>
    exfalso
    obtain ⟨l1, heq, hfa⟩ := stripPrefixCI_some_decomp hsp
    have hlen : M.length = l1.length := hfa.length_eq
    obtain ⟨hpclt, -⟩ := List.getElem?_eq_some.mp hpc
    have hl1lt : pc < l1.length := by omega
    have hl1pc : l1[pc]? = some l1[pc] := List.getElem?_eq_some.mpr ⟨hl1lt, rfl⟩
    have hxc : l1[pc] = ':' := by
      have hci := forall₂_ci_getElem hfa hl1pc hpc
      exact lowChar_eq_colon (by rw [hci]; decide)
    have hx : (a ++ '\n' :: v)[pc]? = some ':' := by
      rw [heq, List.getElem?_append_left hl1lt, hl1pc, hxc]
    rcases Nat.lt_trichotomy pc a.length with hcase | hcase | hcase
    · rw [List.getElem?_append_left hcase] at hx
      exact ha (List.getElem?_mem hx)
    · subst hcase
      rw [List.getElem?_append_right (le_refl _), Nat.sub_self] at hx
      simp at hx
    · have hnl : (a ++ '\n' :: v)[a.length]? = some '\n' := by
        rw [List.getElem?_append_right (le_refl _), Nat.sub_self]
        simp
      rw [heq, List.getElem?_append_left (show a.length < l1.length by omega)] at hnl
      have hwlt : a.length < M.length := by omega
      have hw : M[a.length]? = some (M.get ⟨a.length, hwlt⟩) := by
        rw [List.get_eq_getElem]
        exact List.getElem?_eq_some.mpr ⟨hwlt, rfl⟩
      have hci := forall₂_ci_getElem hfa hnl hw
      have h10 : (lowChar (M.get ⟨a.length, hwlt⟩)).toNat = 10 := by
        rw [← hci]
        exact lowChar_nl_toNat
      exact hM _ (List.getElem?_mem hw) h10

theorem labelMatch_some_decomp {W : List Char} {i : Nat} {s r : List Char}
    (h : labelMatch W i s = some r) :
    ∃ l1 w1 w2, s = l1 ++ (w1 ++ (natChars i ++ (w2 ++ ':' :: r))) ∧
      List.Forall₂ (fun pc c => lowChar c = lowChar pc) W l1 ∧
      (∀ c ∈ w1, pyIsSpace c = true) ∧ (∀ c ∈ w2, pyIsSpace c = true) := by
  rw [labelMatch_eq] at h
  cases hsp : stripPrefixCI W s with
  | none => rw [hsp] at h; simp at h
  | some s1 =>
    rw [hsp, Option.some_bind] at h
    obtain ⟨l1, hs1, hfa⟩ := stripPrefixCI_some_decomp hsp
    cases hse : stripPrefixExact (natChars i) (s1.dropWhile pyIsSpace) with
    | none => rw [hse] at h; simp at h
    | some s3 =>
      rw [hse, Option.some_bind] at h
      rw [stripPrefixExact_some_iff] at hse
      split at h
      · rename_i r' hm
        have hr : r' = r := by simpa using h
        subst hr
        refine ⟨l1, s1.takeWhile pyIsSpace, s3.takeWhile pyIsSpace, ?_, hfa, ?_, ?_⟩
        · rw [hs1]
          congr 1
          conv_lhs => rw [← List.takeWhile_append_dropWhile (p := pyIsSpace) (l := s1)]
          rw [hse]
          congr 1
          congr 1
          conv_lhs => rw [← List.takeWhile_append_dropWhile (p := pyIsSpace) (l := s3)]
          rw [hm]
        · exact fun c hc => List.mem_takeWhile_imp hc
        · exact fun c hc => List.mem_takeWhile_imp hc
      · simp at h

/-- A label pattern `Lab\s*i\s*:` cannot match starting inside a
colon-free region that ends at a newline, provided the text after the
newline starts with a letter-like character (or nothing): the colon the
pattern needs cannot be reached across the newline, because only
whitespace and digits may stand between the label word and the colon. -/
theorem labelMatch_none_guarded (W : List Char) (i : Nat) (a v : List Char)
    (hW : ∀ w ∈ W, 97 ≤ (lowChar w).toNat ∧ (lowChar w).toNat ≤ 122)
    (ha : ':' ∉ a)
    (hv : v = [] ∨ ∃ c cs, v = c :: cs ∧ pyIsSpace c = false ∧
        ¬(48 ≤ c.toNat ∧ c.toNat ≤ 57) ∧ c ≠ ':') :
    labelMatch W i (a ++ '\n' :: v) = none := by
  cases hlm : labelMatch W i (a ++ '\n' :: v) with
  | none => rfl
  | some r =>
    exfalso
    obtain ⟨l1, w1, w2, heq, hfa, hw1, hw2⟩ := labelMatch_some_decomp hlm
    have hL : W.length = l1.length := hfa.length_eq
    have hcolon : (a ++ '\n' :: v)[l1.length + w1.length + (natChars i).length
        + w2.length]? = some ':' := by
      rw [heq, List.getElem?_append_right (by omega),
        List.getElem?_append_right (by omega),
        List.getElem?_append_right (by omega),
        List.getElem?_append_right (by omega)]
      rw [show l1.length + w1.length + (natChars i).length + w2.length - l1.length
        - w1.length - (natChars i).length - w2.length = 0 from by omega]
      simp
    have hPlt := (List.getElem?_eq_some.mp hcolon).1
    have hnl : (a ++ '\n' :: v)[a.length]? = some '\n' := by
      rw [List.getElem?_append_right (le_refl _), Nat.sub_self]
      simp
    have hseg : ∀ q x, (a ++ '\n' :: v)[q]? = some x →
        q < l1.length + w1.length + (natChars i).length + w2.length →
        (q < l1.length ∧ l1[q]? = some x) ∨
        (l1.length ≤ q ∧ q < l1.length + w1.length ∧ x ∈ w1) ∨
        (l1.length + w1.length ≤ q ∧ q < l1.length + w1.length + (natChars i).length ∧
          x ∈ natChars i) ∨
        (l1.length + w1.length + (natChars i).length ≤ q ∧ x ∈ w2) := by
      intro q x hq hqP
      rw [heq] at hq
      by_cases h1 : q < l1.length
      · rw [List.getElem?_append_left h1] at hq
        exact Or.inl ⟨h1, hq⟩
      · push_neg at h1
        rw [List.getElem?_append_right h1] at hq
        by_cases h2 : q - l1.length < w1.length
        · rw [List.getElem?_append_left h2] at hq
          exact Or.inr (Or.inl ⟨h1, by omega, List.getElem?_mem hq⟩)
        · push_neg at h2
          rw [List.getElem?_append_right h2] at hq
          by_cases h3 : q - l1.length - w1.length < (natChars i).length
          · rw [List.getElem?_append_left h3] at hq
            exact Or.inr (Or.inr (Or.inl ⟨by omega, by omega, List.getElem?_mem hq⟩))
          · push_neg at h3
            rw [List.getElem?_append_right h3] at hq
            rw [List.getElem?_append_left (by omega)] at hq
            exact Or.inr (Or.inr (Or.inr ⟨by omega, List.getElem?_mem hq⟩))
    rcases Nat.lt_trichotomy (l1.length + w1.length + (natChars i).length + w2.length)
        a.length with hcase | hcase | hcase
    · rw [List.getElem?_append_left hcase] at hcolon
      exact ha (List.getElem?_mem hcolon)
    · rw [hcase] at hcolon
      rw [hcolon] at hnl
      simp at hnl
    · -- the colon sits beyond the newline
      rcases hv with rfl | ⟨c, cs, rfl, hcws, hcdig, hccol⟩
      · have : (a ++ ['\n']).length = a.length + 1 := by simp
        omega
      · have hq1 : (a ++ '\n' :: c :: cs)[a.length + 1]? = some c := by
          rw [List.getElem?_append_right (by omega),
            show a.length + 1 - a.length = 1 from by omega]
          simp
        have hq0 := hseg a.length '\n' hnl hcase
        have hnl10 : ('\n' : Char).toNat = 10 := by decide
        rcases hq0 with ⟨hlt, hget⟩ | ⟨hge, hlt, hmem⟩ | ⟨hge, hlt, hmem⟩ | ⟨hge, hmem⟩
        · -- newline inside the CI-matched label word: impossible
          have hwlt : a.length < W.length := by omega
          have hwget : W[a.length]? = some (W.get ⟨a.length, hwlt⟩) := by
            rw [List.get_eq_getElem]
            exact List.getElem?_eq_some.mpr ⟨hwlt, rfl⟩
          have hci := forall₂_ci_getElem hfa hget hwget
          have := (hW _ (List.getElem?_mem hwget)).1
          rw [← hci] at this
          rw [show lowChar '\n' = '\n' from by decide] at this
          omega
        · -- newline inside the first whitespace run
          by_cases hqP : a.length + 1 <
              l1.length + w1.length + (natChars i).length + w2.length
          · rcases hseg (a.length + 1) c hq1 hqP with
              ⟨h1, _⟩ | ⟨_, _, hm⟩ | ⟨_, _, hm⟩ | ⟨_, hm⟩
            · omega
            · rw [hw1 c hm] at hcws; cases hcws
            · exact hcdig (natChars_mem_range c hm)
            · rw [hw2 c hm] at hcws; cases hcws
          · have hqeq : a.length + 1 =
                l1.length + w1.length + (natChars i).length + w2.length := by omega
            rw [hqeq] at hq1
            rw [hq1] at hcolon
            simp at hcolon
            exact hccol hcolon
        · -- newline inside the digits: impossible
          have := (natChars_mem_range '\n' hmem).1
          omega
        · -- newline inside the second whitespace run
          by_cases hqP : a.length + 1 <
              l1.length + w1.length + (natChars i).length + w2.length
          · rcases hseg (a.length + 1) c hq1 hqP with
              ⟨h1, _⟩ | ⟨_, h2, hm⟩ | ⟨_, h3, hm⟩ | ⟨_, hm⟩
            · omega
            · have hni := natChars_ne_nil i
              have : 0 < (natChars i).length := List.length_pos.mpr hni
              omega
            · omega
            · rw [hw2 c hm] at hcws; cases hcws
          · have hqeq : a.length + 1 =
                l1.length + w1.length + (natChars i).length + w2.length := by omega
            rw [hqeq] at hq1
            rw [hq1] at hcolon
            simp at hcolon
            exact hccol hcolon

/-! ### The declared output grammar of the prompt, and the search scan -/

/-- One item line of the output grammar declared by
`build_generation_prompt`: `Lab i: text` followed by a newline. -/
def itemLine (W : List Char) (i : Nat) (t : List Char) : List Char :=
  W ++ ' ' :: (natChars i ++ ':' :: ' ' :: (t ++ ['\n']))

/-- The item lines of one section, labelled from `j` upwards. -/
def sectionLines (W : List Char) : List (List Char) → Nat → List Char
  | [], _ => []
  | t :: rest, j => itemLine W j t ++ sectionLines W rest (j + 1)

/-- A text following the output grammar declared by the prompt builder:
the three section markers in order, each followed by its numbered item
lines. -/
def grammarText (ts ds bs : List (List Char)) : List Char :=
  "TITLES:\n".toList ++ (sectionLines "Title".toList ts 1 ++
    ("DESCRIPTIONS:\n".toList ++ (sectionLines "Description".toList ds 1 ++
      ("BULLETS:\n".toList ++ sectionLines "Bullet".toList bs 1))))

/-- Item texts for which parsing is lossless: non-empty, colon-free,
single spaces as the only whitespace, no leading, trailing or doubled
space (so the parser's whitespace normalisation is the identity). -/
def noTwoSpacesB : List Char → Bool
  | a :: b :: r => !(a = ' ' && b = ' ') && noTwoSpacesB (b :: r)
  | _ => true

/-- See `noTwoSpacesB`. -/
def itemOk (t : List Char) : Prop :=
  t ≠ [] ∧ ':' ∉ t ∧ (∀ c ∈ t, pyIsSpace c = true → c = ' ') ∧
  t.head? ≠ some ' ' ∧ t.getLast? ≠ some ' ' ∧ noTwoSpacesB t = true

theorem regexSearchItem_cons_none (lab : List Char) (i : Nat) (m : Option (List Char))
    (c : Char) (cs : List Char) (h : labelMatch lab i (c :: cs) = none) :
    regexSearchItem lab i m (c :: cs) = regexSearchItem lab i m cs := by
  conv_lhs => rw [regexSearchItem, h]

theorem regexSearchItem_skip (lab : List Char) (i : Nat) (m : Option (List Char)) :
    ∀ (a r : List Char),
    (∀ u, u ≠ [] → u.IsSuffix a → labelMatch lab i (u ++ r) = none) →
    regexSearchItem lab i m (a ++ r) = regexSearchItem lab i m r := by
  intro a
  induction a with
  | nil => intro r _; rfl
  | cons c a' ih =>
    intro r h
    rw [List.cons_append]
    rw [regexSearchItem_cons_none lab i m c (a' ++ r)
      (by simpa using h (c :: a') (by simp) (List.suffix_refl _))]
    exact ih r (fun u hu hsuf => h u hu (hsuf.trans (List.suffix_cons c a')))

theorem isSuffix_append_cases {u x y : List Char} (h : u.IsSuffix (x ++ y)) :
    u.IsSuffix y ∨ ∃ u', u'.IsSuffix x ∧ u' ≠ [] ∧ u = u' ++ y := by
  induction x with
  | nil => exact Or.inl (by simpa using h)
  | cons c x' ih =>
    rw [List.cons_append, List.suffix_cons_iff] at h
    rcases h with rfl | h
    · exact Or.inr ⟨c :: x', List.suffix_refl _, by simp, by simp⟩
    · rcases ih h with h | ⟨u', hsuf, hne, rfl⟩
      · exact Or.inl h
      · exact Or.inr ⟨u', hsuf.trans (List.suffix_cons c x'), hne, rfl⟩

theorem lowChar_ne_of_small {c w : Char} (hc : c.toNat < 65)
    (hw : 97 ≤ (lowChar w).toNat) : lowChar c ≠ lowChar w := by
  intro h
  have := congrArg Char.toNat h
  rw [lowChar_toNat_of_lt hc] at this
  omega

theorem labelMatch_none_of_stripCI {patW : List Char} (i : Nat) {s : List Char}
    (h : stripPrefixCI patW s = none) : labelMatch patW i s = none := by
  rw [labelMatch_eq, h]
  rfl

/-- No occurrence of the item pattern `patW\s*i\s*:` can start anywhere
strictly inside a grammar item line `lineW j: tj` (including at its very
start when the full-line hypothesis says so). -/
theorem labelMatch_none_in_line (patW lineW : List Char) (i j : Nat) (tj r : List Char)
    (hp0 : ∃ w0 W', patW = w0 :: W' ∧ 97 ≤ (lowChar w0).toNat)
    (hpl : ∀ w ∈ patW, 97 ≤ (lowChar w).toNat ∧ (lowChar w).toNat ≤ 122)
    (hfull : ∀ z, labelMatch patW i (lineW ++ ' ' :: (natChars j ++ ':' :: z)) = none)
    (hsuf : ∀ u', u'.IsSuffix lineW → u' ≠ [] → u' ≠ lineW →
        ∀ z, stripPrefixCI patW (u' ++ ' ' :: (natChars j ++ ':' :: z)) = none)
    (htj : ':' ∉ tj)
    (hr : r = [] ∨ ∃ c cs, r = c :: cs ∧ pyIsSpace c = false ∧
        ¬(48 ≤ c.toNat ∧ c.toNat ≤ 57) ∧ c ≠ ':') :
    ∀ u, u ≠ [] → u.IsSuffix (itemLine lineW j tj) → labelMatch patW i (u ++ r) = none := by
  obtain ⟨w0, W', hpatW, hw0⟩ := hp0
  intro u hne hsufu
  unfold itemLine at hsufu
  rcases isSuffix_append_cases hsufu with hA | ⟨u', hu'suf, hu'ne, rfl⟩
  · -- u starts inside the part after the label word
    rcases List.suffix_cons_iff.mp hA with rfl | hB
    · -- u starts at the space after the label word
      rw [List.cons_append]
      exact hpatW ▸ labelMatch_none_head i _ (lowChar_ne_of_small (by decide) hw0)
    · rcases isSuffix_append_cases hB with hC | ⟨u', hu'suf, hu'ne, rfl⟩
      · -- u starts at or after the colon
        rcases List.suffix_cons_iff.mp hC with rfl | hD
        · rw [List.cons_append]
          exact hpatW ▸ labelMatch_none_head i _ (lowChar_ne_of_small (by decide) hw0)
        · rcases List.suffix_cons_iff.mp hD with rfl | hE
          · rw [List.cons_append]
            exact hpatW ▸ labelMatch_none_head i _ (lowChar_ne_of_small (by decide) hw0)
          · rcases isSuffix_append_cases hE with hF | ⟨u', hu'suf, hu'ne, rfl⟩
            · -- u is a suffix of the final newline
              rcases List.suffix_cons_iff.mp hF with rfl | hG
              · rw [List.cons_append]
                have := labelMatch_none_guarded patW i [] r hpl (by simp) hr
                simpa using this
              · simp only [List.suffix_nil] at hG
                exact absurd hG hne
            · -- u starts inside the item text
              have hcolon : ':' ∉ u' := fun hmem => htj (hu'suf.subset hmem)
              rw [List.append_assoc, List.singleton_append]
              exact labelMatch_none_guarded patW i u' r hpl hcolon hr
      · -- u starts inside the digits
        cases u' with
        | nil => exact absurd rfl hu'ne
        | cons d u'' =>
          have hd : d ∈ natChars j := hu'suf.subset (by simp)
          have hdr := natChars_mem_range d hd
          rw [List.cons_append, List.cons_append]
          exact hpatW ▸ labelMatch_none_head i _ (lowChar_ne_of_small (by omega) hw0)
  · -- u starts inside the label word
    by_cases hful : u' = lineW
    · subst hful
      rw [List.append_assoc]
      have := hfull (' ' :: (tj ++ ['\n'] ++ r))
      simpa using this
    · rw [List.append_assoc]
      apply labelMatch_none_of_stripCI
      have := hsuf u' hu'suf hu'ne hful (' ' :: (tj ++ ['\n'] ++ r))
      simpa using this

/-! ### Capture analysis at a grammar item line -/

theorem lookaheadOk_nl (lab : List Char) (j : Nat) (m : Option (List Char)) :
    lookaheadOk lab j m ['\n'] = true := by
  simp [lookaheadOk]

theorem lookaheadOk_of_label (lab : List Char) (j : Nat) (m : Option (List Char))
    (z : List Char) (h : (labelMatch lab j z).isSome) : lookaheadOk lab j m z = true := by
  simp [lookaheadOk, h]

/-- At a position strictly inside an item text (or at its trailing
newline when more text follows), none of the lookahead alternatives can
fire. -/
theorem lookaheadOk_false_mid (patW : List Char) (jn : Nat) (m : Option (List Char))
    (a v : List Char)
    (hpl : ∀ w ∈ patW, 97 ≤ (lowChar w).toNat ∧ (lowChar w).toNat ≤ 122)
    (ha : ':' ∉ a)
    (hm : m = none ∨ ∃ (M : List Char) (pc : Nat), m = some M ∧ M[pc]? = some ':' ∧
        ∀ c ∈ M, (lowChar c).toNat ≠ 10)
    (hv : v = [] ∨ ∃ c cs, v = c :: cs ∧ pyIsSpace c = false ∧
        ¬(48 ≤ c.toNat ∧ c.toNat ≤ 57) ∧ c ≠ ':')
    (hne : ¬(a = [] ∧ v = [])) :
    lookaheadOk patW jn m (a ++ '\n' :: v) = false := by
  have hempty : (a ++ '\n' :: v).isEmpty = false := by
    cases a <;> rfl
  have hbeq : ((a ++ '\n' :: v) == ['\n']) = false := by
    rw [beq_eq_false_iff_ne]
    intro h
    have hlen := congrArg List.length h
    simp at hlen
    exact hne ⟨List.eq_nil_of_length_eq_zero (by omega),
      List.eq_nil_of_length_eq_zero (by omega)⟩
  unfold lookaheadOk
  rcases hm with rfl | ⟨M, pc, rfl, hpc, hM⟩
  · simp [labelMatch_none_guarded patW jn a v hpl ha hv, hempty, hbeq]
  · simp [labelMatch_none_guarded patW jn a v hpl ha hv, hempty, hbeq,
      stripPrefixCI_none_guarded M a v pc hpc hM ha]

theorem findEndAux_spec (lab : List Char) (j : Nat) (m : Option (List Char))
    (t : List Char) (K : Nat) : ∀ (fuel k : Nat), k ≤ K → K ≤ k + fuel →
    (∀ k', k ≤ k' → k' < K → lookaheadOk lab j m (t.drop k') = false) →
    lookaheadOk lab j m (t.drop K) = true →
    findEndAux lab j m t k fuel = K := by
  intro fuel
  induction fuel with
  | zero =>
    intro k h1 h2 _ _
    unfold findEndAux
    omega
  | succ fuel ih =>
    intro k h1 h2 hfalse htrue
    unfold findEndAux
    by_cases hk : k = K
    · subst hk
      rw [htrue]
      simp
    · rw [hfalse k (le_refl _) (by omega)]
      simp only [Bool.false_eq_true, if_false]
      exact ih (k + 1) (by omega) (by omega) (fun k' ha hb => hfalse k' (by omega) hb) htrue

theorem captureAt_grammar (patW : List Char) (jn : Nat) (m : Option (List Char))
    (ti z : List Char) (K : Nat)
    (hhead : ∃ c0 cs0, ti = c0 :: cs0 ∧ pyIsSpace c0 = false)
    (hK1 : 1 ≤ K) (hKlen : K ≤ (ti ++ '\n' :: z).length)
    (hfalse : ∀ k', 1 ≤ k' → k' < K →
        lookaheadOk patW jn m ((ti ++ '\n' :: z).drop k') = false)
    (htrue : lookaheadOk patW jn m ((ti ++ '\n' :: z).drop K) = true) :
    captureAt patW jn m (' ' :: (ti ++ '\n' :: z)) = some ((ti ++ '\n' :: z).take K) := by
  obtain ⟨c0, cs0, rfl, hc0⟩ := hhead
  unfold captureAt
  have htw : ((' ' :: ((c0 :: cs0) ++ '\n' :: z)).takeWhile pyIsSpace).length = 1 := by
    rw [List.takeWhile_cons]
    simp only [show pyIsSpace ' ' = true from by decide, if_true]
    rw [List.cons_append, List.takeWhile_cons]
    simp [hc0]
  rw [htw]
  have hlen : 1 < (' ' :: ((c0 :: cs0) ++ '\n' :: z)).length := by simp
  rw [if_pos hlen]
  have hdrop : (' ' :: ((c0 :: cs0) ++ '\n' :: z)).drop 1 = (c0 :: cs0) ++ '\n' :: z := rfl
  rw [hdrop]
  dsimp only
  rw [findEndAux_spec patW jn m _ K _ 1 hK1 (by
      simp only [List.length_cons, List.length_append] at hKlen ⊢
      omega) hfalse htrue]

/-! ### Items in canonical whitespace form are fixed points of the normaliser -/

/-- Non-empty whitespace-free words separated by single spaces. -/
inductive WordsOk : List Char → Prop where
  | single (w : List Char) (hne : w ≠ []) (hw : ∀ c ∈ w, pyIsSpace c = false) : WordsOk w
  | more (w t : List Char) (hne : w ≠ []) (hw : ∀ c ∈ w, pyIsSpace c = false)
      (ht : WordsOk t) : WordsOk (w ++ ' ' :: t)

theorem head_dropWhile_not {p : Char → Bool} : ∀ {l : List Char} {c : Char}
    {r : List Char}, l.dropWhile p = c :: r → p c = false := by
  intro l
  induction l with
  | nil => intro c r h; cases h
  | cons a l ih =>
    intro c r h
    rw [List.dropWhile_cons] at h
    split at h
    · exact ih h
    · cases h
      simp_all

theorem noTwoSpacesB_tail {a : Char} {l : List Char}
    (h : noTwoSpacesB (a :: l) = true) : noTwoSpacesB l = true := by
  cases l with
  | nil => rfl
  | cons b r =>
    unfold noTwoSpacesB at h
    simp only [Bool.and_eq_true] at h
    exact h.2

theorem noTwoSpacesB_suffix : ∀ (x : List Char) {y : List Char},
    noTwoSpacesB (x ++ y) = true → noTwoSpacesB y = true := by
  intro x
  induction x with
  | nil => intro y h; exact h
  | cons a x ih => intro y h; exact ih (noTwoSpacesB_tail h)

theorem itemOk_wordsOk : ∀ (n : Nat) (t : List Char), t.length ≤ n → itemOk t → WordsOk t := by
  intro n
  induction n with
  | zero =>
    intro t hlen hok
    have := hok.1
    cases t
    · exact absurd rfl this
    · simp at hlen
  | succ n ih =>
    intro t hlen hok
    obtain ⟨hne, hcol, hws, hhead, hlast, hnts⟩ := hok
    have hsplit : t.takeWhile (fun c => !pyIsSpace c) ++ t.dropWhile (fun c => !pyIsSpace c)
        = t := List.takeWhile_append_dropWhile _ _
    have hwp : ∀ c ∈ t.takeWhile (fun c => !pyIsSpace c), pyIsSpace c = false := by
      intro c hc
      have := List.mem_takeWhile_imp hc
      simpa using this
    have hwne : t.takeWhile (fun c => !pyIsSpace c) ≠ [] := by
      cases t with
      | nil => exact absurd rfl hne
      | cons c t' =>
        have hcns : pyIsSpace c = false := by
          cases hsp : pyIsSpace c
          · rfl
          · exact absurd (congrArg some (hws c (by simp) hsp))
              (by simpa [List.head?] using hhead)
        rw [List.takeWhile_cons]
        simp [hcns]
    cases hrest : t.dropWhile (fun c => !pyIsSpace c) with
    | nil =>
      have hteq : t = t.takeWhile (fun c => !pyIsSpace c) := by
        conv_lhs => rw [← hsplit]
        rw [hrest, List.append_nil]
      rw [hteq]
      exact WordsOk.single _ hwne hwp
    | cons c rest' =>
      have hcsp : pyIsSpace c = true := by
        have := head_dropWhile_not hrest
        simpa using this
      have hcmem : c ∈ t := (List.dropWhile_sublist _).subset (by rw [hrest]; simp)
      have hcsp2 : c = ' ' := hws c hcmem hcsp
      subst hcsp2
      have hteq : t = t.takeWhile (fun c => !pyIsSpace c) ++ ' ' :: rest' := by
        conv_lhs => rw [← hsplit]
        rw [hrest]
      have hrne : rest' ≠ [] := by
        rintro rfl
        rw [hteq, List.getLast?_append_of_ne_nil _ (by simp)] at hlast
        simp at hlast
      have hnts2 : noTwoSpacesB (' ' :: rest') = true := by
        apply noTwoSpacesB_suffix (t.takeWhile (fun c => !pyIsSpace c))
        rw [← hteq]
        exact hnts
      have hrhead : rest'.head? ≠ some ' ' := by
        cases rest' with
        | nil => simp
        | cons c2 r2 =>
          unfold noTwoSpacesB at hnts2
          simp only [Bool.and_eq_true] at hnts2
          have h1 := hnts2.1
          simp only [List.head?]
          intro hc2
          have hc2b : c2 = ' ' := by simpa using hc2
          subst hc2b
          simp at h1
      have hrok : itemOk rest' := by
        refine ⟨hrne, ?_, ?_, hrhead, ?_, noTwoSpacesB_tail hnts2⟩
        · intro hc
          exact hcol (by rw [hteq]; simp [hc])
        · intro c hc hsp
          exact hws c (by rw [hteq]; simp [hc]) hsp
        · rw [hteq, List.getLast?_append_of_ne_nil _ (by simp),
            show (' ' :: rest') = [' '] ++ rest' from rfl,
            List.getLast?_append_of_ne_nil _ hrne] at hlast
          exact hlast
      have hrlen : rest'.length ≤ n := by
        have hlt := congrArg List.length hteq
        simp at hlt
        have hwl : 0 < (t.takeWhile (fun c => !pyIsSpace c)).length :=
          List.length_pos.mpr hwne
        omega
      rw [hteq]
      exact WordsOk.more _ _ hwne hwp (ih rest' hrlen hrok)

theorem wordsOk_ne_nil {t : List Char} (h : WordsOk t) : t ≠ [] := by
  induction h with
  | single w hne hw => exact hne
  | more w t hne hw ht ih =>
    simp only [ne_eq, List.append_eq_nil]
    rintro ⟨rfl, -⟩
    exact hne rfl

theorem wordsOk_head {t : List Char} (h : WordsOk t) :
    ∃ c0 cs0, t = c0 :: cs0 ∧ pyIsSpace c0 = false := by
  induction h with
  | single w hne hw =>
    cases w with
    | nil => exact absurd rfl hne
    | cons c cs => exact ⟨c, cs, rfl, hw c (by simp)⟩
  | more w t hne hw ht ih =>
    cases w with
    | nil => exact absurd rfl hne
    | cons c cs => exact ⟨c, cs ++ ' ' :: t, by simp, hw c (by simp)⟩

theorem splitWsAux_cons_not_space {c : Char} (hc : pyIsSpace c = false)
    (cs acc : List Char) : splitWsAux (c :: cs) acc = splitWsAux cs (c :: acc) := by
  simp [splitWsAux, hc]

theorem splitWsAux_cons_space {c : Char} (hc : pyIsSpace c = true)
    (cs acc : List Char) : splitWsAux (c :: cs) acc =
      if acc.isEmpty then splitWsAux cs [] else acc.reverse :: splitWsAux cs [] := by
  simp [splitWsAux, hc]

theorem splitWsAux_nil_eq (acc : List Char) :
    splitWsAux [] acc = if acc.isEmpty then [] else [acc.reverse] := rfl

theorem splitWsAux_no_ws : ∀ (w : List Char), (∀ c ∈ w, pyIsSpace c = false) →
    ∀ (rest acc : List Char), splitWsAux (w ++ rest) acc = splitWsAux rest (w.reverse ++ acc) := by
  intro w
  induction w with
  | nil => intro _ rest acc; simp
  | cons c w' ih =>
    intro hw rest acc
    rw [List.cons_append, splitWsAux_cons_not_space (hw c (by simp)),
      ih (fun d hd => hw d (by simp [hd])) rest (c :: acc)]
    congr 1
    simp

theorem splitWs_word_nil (w : List Char) (hne : w ≠ [])
    (hw : ∀ c ∈ w, pyIsSpace c = false) : splitWs w = [w] := by
  unfold splitWs
  rw [show w = w ++ ([] : List Char) from by simp]
  rw [splitWsAux_no_ws w hw [] [], splitWsAux_nil_eq]
  simp [hne]

theorem splitWs_word_cons (w t : List Char) (hne : w ≠ [])
    (hw : ∀ c ∈ w, pyIsSpace c = false) : splitWs (w ++ ' ' :: t) = w :: splitWs t := by
  unfold splitWs
  rw [splitWsAux_no_ws w hw (' ' :: t) [], List.append_nil,
    splitWsAux_cons_space (by decide)]
  rw [List.isEmpty_eq_false.mpr (by simpa using hne)]
  simp

theorem intercalate_single (x : List Char) : List.intercalate [' '] [x] = x := by
  simp [List.intercalate]

theorem intercalate_cons2 (s x y : List Char) (r : List (List Char)) :
    List.intercalate s (x :: y :: r) = x ++ s ++ List.intercalate s (y :: r) := by
  simp [List.intercalate, List.intersperse]

theorem wordsOk_normalize {t : List Char} (h : WordsOk t) : pyNormalize t = t := by
  induction h with
  | single w hne hw =>
    unfold pyNormalize
    rw [splitWs_word_nil w hne hw, intercalate_single]
  | more w t hne hw ht ih =>
    unfold pyNormalize at ih ⊢
    rw [splitWs_word_cons w t hne hw]
    cases hs : splitWs t with
    | nil =>
      rw [hs] at ih
      simp [List.intercalate] at ih
      exact absurd ih (wordsOk_ne_nil ht)
    | cons y r =>
      rw [hs] at ih
      rw [intercalate_cons2, ih]
      simp

theorem splitWsAux_snoc_space {c : Char} (hc : pyIsSpace c = true) :
    ∀ (s acc : List Char), splitWsAux (s ++ [c]) acc = splitWsAux s acc := by
  intro s
  induction s with
  | nil =>
    intro acc
    simp only [List.nil_append]
    rw [splitWsAux_cons_space hc, splitWsAux_nil_eq]
    cases hacc : acc.isEmpty
    · have hne := List.isEmpty_eq_false.mp hacc
      simp [splitWsAux_nil_eq, hne]
    · have hnil : acc = [] := by
        cases acc
        · rfl
        · simp at hacc
      subst hnil
      simp [splitWsAux_nil_eq]
  | cons a s' ih =>
    intro acc
    rw [List.cons_append]
    cases hsp : pyIsSpace a
    · rw [splitWsAux_cons_not_space hsp, splitWsAux_cons_not_space hsp, ih]
    · rw [splitWsAux_cons_space hsp, splitWsAux_cons_space hsp, ih]

theorem pyNormalize_snoc_nl (t : List Char) :
    pyNormalize (t ++ ['\n']) = pyNormalize t := by
  unfold pyNormalize splitWs
  rw [splitWsAux_snoc_space (by decide)]

/-! ### Search and capture at a full grammar item line -/

theorem itemOk_nl {t : List Char} (h : itemOk t) : '\n' ∉ t := by
  intro hmem
  have := h.2.2.1 '\n' hmem (by decide)
  cases this

theorem itemOk_head {t : List Char} (h : itemOk t) :
    ∃ c0 cs0, t = c0 :: cs0 ∧ pyIsSpace c0 = false :=
  wordsOk_head (itemOk_wordsOk t.length t (le_refl _) h)

theorem itemOk_normalize {t : List Char} (h : itemOk t) : pyNormalize t = t :=
  wordsOk_normalize (itemOk_wordsOk t.length t (le_refl _) h)

theorem regexSearchItem_cons (lab : List Char) (i : Nat) (m : Option (List Char))
    (c : Char) (cs : List Char) :
    regexSearchItem lab i m (c :: cs) =
      Option.or ((labelMatch lab i (c :: cs)).bind (captureAt lab (i + 1) m))
        (regexSearchItem lab i m cs) := by
  conv_lhs => rw [regexSearchItem]
  cases labelMatch lab i (c :: cs) with
  | none => rfl
  | some rest =>
    show (match captureAt lab (i + 1) m rest with
      | some cap => some cap
      | none => regexSearchItem lab i m cs) = _
    rw [Option.some_bind]
    cases captureAt lab (i + 1) m rest <;> rfl

theorem itemLine_shape (W : List Char) (i : Nat) (t z : List Char) :
    itemLine W i t ++ z = W ++ ' ' :: (natChars i ++ ':' :: (' ' :: (t ++ '\n' :: z))) := by
  unfold itemLine
  simp

/-- The capture computed at a grammar item line: the item text itself
(up to the trailing newline, which normalisation removes). -/
theorem captureAt_item (w0 : Char) (W' : List Char) (i : Nat) (m : Option (List Char))
    (t z : List Char)
    (hpl : ∀ w ∈ (w0 :: W'), 97 ≤ (lowChar w).toNat ∧ (lowChar w).toNat ≤ 122)
    (hw0 : pyIsSpace w0 = false ∧ ¬(48 ≤ w0.toNat ∧ w0.toNat ≤ 57) ∧ w0 ≠ ':')
    (hm : m = none ∨ ∃ (M : List Char) (pc : Nat), m = some M ∧ M[pc]? = some ':' ∧
        ∀ c ∈ M, (lowChar c).toNat ≠ 10)
    (hitem : itemOk t)
    (hz : z = [] ∨ ∃ t2 z2, z = itemLine (w0 :: W') (i + 1) t2 ++ z2) :
    ∃ cap, captureAt (w0 :: W') (i + 1) m (' ' :: (t ++ '\n' :: z)) = some cap ∧
      pyNormalize cap = t := by
  have htne : t ≠ [] := hitem.1
  have htcol : ':' ∉ t := hitem.2.1
  have htlen : 0 < t.length := List.length_pos.mpr htne
  rcases hz with rfl | ⟨t2, z2, rfl⟩
  · -- last line of the section: the capture stops just before the final newline
    refine ⟨t, ?_, itemOk_normalize hitem⟩
    have h := captureAt_grammar (w0 :: W') (i + 1) m t [] t.length
      (itemOk_head hitem) (by omega) (by simp)
      (fun k hk1 hklt => by
        rw [List.drop_append_of_le_length (by omega)]
        apply lookaheadOk_false_mid _ _ _ _ _ hpl
          (fun hc => htcol ((List.drop_sublist _ _).subset hc)) hm (Or.inl rfl)
        rintro ⟨hdrop, -⟩
        have := congrArg List.length hdrop
        simp at this
        omega)
      (by
        rw [show (t ++ '\n' :: ([] : List Char)) = t ++ ['\n'] from rfl,
          List.drop_left]
        exact lookaheadOk_nl _ _ _)
    rw [h]
    rw [show (t ++ '\n' :: ([] : List Char)) = t ++ ['\n'] from rfl, List.take_left]
  · -- a later line follows: the capture stops at the next label
    refine ⟨t ++ ['\n'], ?_, by rw [pyNormalize_snoc_nl]; exact itemOk_normalize hitem⟩
    have hassoc : t ++ '\n' :: (itemLine (w0 :: W') (i + 1) t2 ++ z2) =
        (t ++ ['\n']) ++ (itemLine (w0 :: W') (i + 1) t2 ++ z2) := by simp
    have h := captureAt_grammar (w0 :: W') (i + 1) m t
      (itemLine (w0 :: W') (i + 1) t2 ++ z2) (t.length + 1)
      (itemOk_head hitem) (by omega) (by simp)
      (fun k hk1 hklt => by
        rw [List.drop_append_of_le_length (by omega)]
        apply lookaheadOk_false_mid _ _ _ _ _ hpl
          (fun hc => htcol ((List.drop_sublist _ _).subset hc)) hm
        · refine Or.inr ⟨w0,
            W' ++ ' ' :: (natChars (i + 1) ++ ':' :: (' ' :: (t2 ++ '\n' :: z2))), ?_,
            hw0.1, hw0.2.1, hw0.2.2⟩
          rw [itemLine_shape]
          rfl
        · rintro ⟨-, hz⟩
          rw [itemLine_shape] at hz
          simp at hz)
      (by
        rw [hassoc, show t.length + 1 = (t ++ ['\n']).length from by simp, List.drop_left]
        apply lookaheadOk_of_label
        rw [itemLine_shape]
        rw [labelMatch_hit]
        rfl)
    rw [h, hassoc, show t.length + 1 = (t ++ ['\n']).length from by simp, List.take_left]

theorem regexSearchItem_hit (w0 : Char) (W' : List Char) (i : Nat) (m : Option (List Char))
    (t z cap : List Char)
    (hcap : captureAt (w0 :: W') (i + 1) m (' ' :: (t ++ '\n' :: z)) = some cap) :
    regexSearchItem (w0 :: W') i m (itemLine (w0 :: W') i t ++ z) = some cap := by
  have hlm : labelMatch (w0 :: W') i
      (w0 :: (W' ++ ' ' :: (natChars i ++ ':' :: (' ' :: (t ++ '\n' :: z))))) =
      some (' ' :: (t ++ '\n' :: z)) := by
    have := labelMatch_hit (w0 :: W') i (' ' :: (t ++ '\n' :: z))
    simpa using this
  rw [itemLine_shape, List.cons_append, regexSearchItem_cons, hlm, Option.some_bind, hcap]
  rfl

theorem sectionLines_cons (W : List Char) (t : List Char) (rest : List (List Char)) (j : Nat) :
    sectionLines W (t :: rest) j = itemLine W j t ++ sectionLines W rest (j + 1) := rfl

/-- Searching for label `i` in the lines of a grammar section labelled
from `j` finds exactly item `i - j`, whose normalised capture is the
item text. -/
theorem search_lines (w0 : Char) (W' : List Char) (m : Option (List Char))
    (hpl : ∀ w ∈ (w0 :: W'), 97 ≤ (lowChar w).toNat ∧ (lowChar w).toNat ≤ 122)
    (hw0 : pyIsSpace w0 = false ∧ ¬(48 ≤ w0.toNat ∧ w0.toNat ≤ 57) ∧ w0 ≠ ':')
    (hm : m = none ∨ ∃ (M : List Char) (pc : Nat), m = some M ∧ M[pc]? = some ':' ∧
        ∀ c ∈ M, (lowChar c).toNat ≠ 10)
    (hsuf : ∀ u', u'.IsSuffix (w0 :: W') → u' ≠ [] → u' ≠ (w0 :: W') →
        ∀ z, stripPrefixCI (w0 :: W') (u' ++ z) = none) :
    ∀ (items : List (List Char)) (j i : Nat), (∀ t ∈ items, itemOk t) →
      1 ≤ j → j ≤ i → i < j + items.length →
      ∃ cap, regexSearchItem (w0 :: W') i m (sectionLines (w0 :: W') items j) = some cap ∧
        pyNormalize cap = items.getD (i - j) [] := by
  intro items
  induction items with
  | nil =>
    intro j i _ _ hji hlt
    simp at hlt
    omega
  | cons t rest ih =>
    intro j i hitems hj hji hlt
    rw [sectionLines_cons]
    by_cases hij : i = j
    · subst hij
      have hz : sectionLines (w0 :: W') rest (i + 1) = [] ∨
          ∃ t2 z2, sectionLines (w0 :: W') rest (i + 1) =
            itemLine (w0 :: W') (i + 1) t2 ++ z2 := by
        cases rest with
        | nil => exact Or.inl rfl
        | cons t2 rest2 => exact Or.inr ⟨t2, _, rfl⟩
      obtain ⟨cap, hcap, hnorm⟩ := captureAt_item w0 W' i m t
        (sectionLines (w0 :: W') rest (i + 1)) hpl hw0 hm (hitems t (by simp)) hz
      refine ⟨cap, regexSearchItem_hit w0 W' i m t _ cap hcap, ?_⟩
      rw [Nat.sub_self]
      simpa using hnorm
    · have hgt : j < i := by omega
      have hrne : rest ≠ [] := by
        rintro rfl
        simp at hlt
        omega
      have hskip : regexSearchItem (w0 :: W') i m
          (itemLine (w0 :: W') j t ++ sectionLines (w0 :: W') rest (j + 1)) =
          regexSearchItem (w0 :: W') i m (sectionLines (w0 :: W') rest (j + 1)) := by
        apply regexSearchItem_skip
        apply labelMatch_none_in_line (w0 :: W') (w0 :: W') i j t
          (sectionLines (w0 :: W') rest (j + 1))
          ⟨w0, W', rfl, (hpl w0 (by simp)).1⟩ hpl
          (fun z => labelMatch_digits_ne (by omega) (by omega) (by omega) (w0 :: W') z)
          (fun u' hu hne hnf z => hsuf u' hu hne hnf _)
          (hitems t (by simp)).2.1
        cases rest with
        | nil => exact absurd rfl hrne
        | cons t2 rest2 =>
          refine Or.inr ⟨w0,
            W' ++ ' ' :: (natChars (j + 1) ++ ':' ::
              (' ' :: (t2 ++ '\n' :: sectionLines (w0 :: W') rest2 (j + 1 + 1)))), ?_,
            hw0.1, hw0.2.1, hw0.2.2⟩
          rw [sectionLines_cons, itemLine_shape]
          rfl
      rw [hskip]
      obtain ⟨cap, hcap, hnorm⟩ := ih (j + 1) i
        (fun x hx => hitems x (by simp [hx])) (by omega) (by omega) (by simp at hlt ⊢; omega)
      refine ⟨cap, hcap, ?_⟩
      rw [hnorm]
      rw [show i - j = (i - (j + 1)) + 1 from by omega]
      rfl

theorem getD_mem_of_lt {l : List (List Char)} {n : Nat} (h : n < l.length) :
    l.getD n [] ∈ l := by
  rw [List.getD_eq_getElem l [] h]
  exact List.getElem_mem h

theorem parseSection_take (lab : List Char) (m : Option (List Char)) (minLen : Nat)
    (sec : List Char) (items : List (List Char))
    (hsearch : ∀ k, k < items.length → ∃ cap,
      regexSearchItem lab (k + 1) m sec = some cap ∧ pyNormalize cap = items.getD k [])
    (hlen : ∀ t ∈ items, minLen < t.length) :
    ∀ N, N ≤ items.length → parseSection lab m minLen sec N = items.take N := by
  intro N
  induction N with
  | zero => intro _; rfl
  | succ N ihN =>
    intro hle
    rw [parseSection_succ, ihN (by omega)]
    obtain ⟨cap, hcap, hnorm⟩ := hsearch N (by omega)
    unfold parseSectionStep
    rw [hcap]
    simp only
    rw [hnorm]
    rw [if_pos (hlen _ (getD_mem_of_lt (by omega)))]
    rw [List.take_succ]
    congr 1
    rw [List.getD_eq_getElem items [] (by omega)]
    rw [List.getElem?_eq_some.mpr ⟨by omega, rfl⟩]
    rfl

theorem search_section (w0 : Char) (W' : List Char) (m : Option (List Char))
    (hpl : ∀ w ∈ (w0 :: W'), 97 ≤ (lowChar w).toNat ∧ (lowChar w).toNat ≤ 122)
    (hw0 : pyIsSpace w0 = false ∧ ¬(48 ≤ w0.toNat ∧ w0.toNat ≤ 57) ∧ w0 ≠ ':')
    (hm : m = none ∨ ∃ (M : List Char) (pc : Nat), m = some M ∧ M[pc]? = some ':' ∧
        ∀ c ∈ M, (lowChar c).toNat ≠ 10)
    (hsuf : ∀ u', u'.IsSuffix (w0 :: W') → u' ≠ [] → u' ≠ (w0 :: W') →
        ∀ z, stripPrefixCI (w0 :: W') (u' ++ z) = none)
    (items : List (List Char)) (hitems : ∀ t ∈ items, itemOk t)
    (k : Nat) (hk : k < items.length) :
    ∃ cap, regexSearchItem (w0 :: W') (k + 1) m
        ('\n' :: sectionLines (w0 :: W') items 1) = some cap ∧
      pyNormalize cap = items.getD k [] := by
  have hnl : labelMatch (w0 :: W') (k + 1) ('\n' :: sectionLines (w0 :: W') items 1) =
      none :=
    labelMatch_none_head (k + 1) _ (lowChar_ne_of_small (by decide) (hpl w0 (by simp)).1)
  rw [regexSearchItem_cons_none _ _ _ _ _ hnl]
  have := search_lines w0 W' m hpl hw0 hm hsuf items 1 (k + 1) hitems (le_refl _)
    (by omega) (by omega)
  simpa using this

/-- Complete recovery of one grammar section. -/
theorem parseSection_grammar (w0 : Char) (W' : List Char) (m : Option (List Char))
    (minLen : Nat)
    (hpl : ∀ w ∈ (w0 :: W'), 97 ≤ (lowChar w).toNat ∧ (lowChar w).toNat ≤ 122)
    (hw0 : pyIsSpace w0 = false ∧ ¬(48 ≤ w0.toNat ∧ w0.toNat ≤ 57) ∧ w0 ≠ ':')
    (hm : m = none ∨ ∃ (M : List Char) (pc : Nat), m = some M ∧ M[pc]? = some ':' ∧
        ∀ c ∈ M, (lowChar c).toNat ≠ 10)
    (hsuf : ∀ u', u'.IsSuffix (w0 :: W') → u' ≠ [] → u' ≠ (w0 :: W') →
        ∀ z, stripPrefixCI (w0 :: W') (u' ++ z) = none)
    (items : List (List Char)) (hitems : ∀ t ∈ items, itemOk t ∧ minLen < t.length) :
    parseSection (w0 :: W') m minLen ('\n' :: sectionLines (w0 :: W') items 1)
      items.length = items := by
  have h := parseSection_take (w0 :: W') m minLen
    ('\n' :: sectionLines (w0 :: W') items 1) items
    (fun k hk => search_section w0 W' m hpl hw0 hm hsuf items
      (fun t ht => (hitems t ht).1) k hk)
    (fun t ht => (hitems t ht).2) items.length (le_refl _)
  rwa [List.take_length] at h

theorem title_suffix_strip : ∀ u', u'.IsSuffix ("Title".toList) → u' ≠ [] →
    u' ≠ "Title".toList → ∀ z, stripPrefixCI "Title".toList (u' ++ z) = none := by
  intro u' hsuf hne hnf z
  have hmem : u' ∈ ("Title".toList).tails := (List.mem_tails _ _).mpr hsuf
  rw [show ("Title".toList).tails = [['T','i','t','l','e'], ['i','t','l','e'],
      ['t','l','e'], ['l','e'], ['e'], []] from by decide] at hmem
  simp only [List.mem_cons, List.not_mem_nil, or_false] at hmem
  rcases hmem with rfl | rfl | rfl | rfl | rfl | rfl
  · exact absurd (by decide) hnf
  · rfl
  · rfl
  · rfl
  · rfl
  · exact absurd rfl hne

theorem description_suffix_strip : ∀ u', u'.IsSuffix ("Description".toList) → u' ≠ [] →
    u' ≠ "Description".toList → ∀ z, stripPrefixCI "Description".toList (u' ++ z) = none := by
  intro u' hsuf hne hnf z
  have hmem : u' ∈ ("Description".toList).tails := (List.mem_tails _ _).mpr hsuf
  rw [show ("Description".toList).tails =
    [['D','e','s','c','r','i','p','t','i','o','n'],
     ['e','s','c','r','i','p','t','i','o','n'],
     ['s','c','r','i','p','t','i','o','n'],
     ['c','r','i','p','t','i','o','n'],
     ['r','i','p','t','i','o','n'],
     ['i','p','t','i','o','n'],
     ['p','t','i','o','n'],
     ['t','i','o','n'],
     ['i','o','n'],
     ['o','n'],
     ['n'], []] from by decide] at hmem
  simp only [List.mem_cons, List.not_mem_nil, or_false] at hmem
  rcases hmem with rfl | rfl | rfl | rfl | rfl | rfl | rfl | rfl | rfl | rfl | rfl | rfl
  · exact absurd (by decide) hnf
  · rfl
  · rfl
  · rfl
  · rfl
  · rfl
  · rfl
  · rfl
  · rfl
  · rfl
  · rfl
  · exact absurd rfl hne

theorem bullet_suffix_strip : ∀ u', u'.IsSuffix ("Bullet".toList) → u' ≠ [] →
    u' ≠ "Bullet".toList → ∀ z, stripPrefixCI "Bullet".toList (u' ++ z) = none := by
  intro u' hsuf hne hnf z
  have hmem : u' ∈ ("Bullet".toList).tails := (List.mem_tails _ _).mpr hsuf
  rw [show ("Bullet".toList).tails = [['B','u','l','l','e','t'], ['u','l','l','e','t'],
      ['l','l','e','t'], ['l','e','t'], ['e','t'], ['t'], []] from by decide] at hmem
  simp only [List.mem_cons, List.not_mem_nil, or_false] at hmem
  rcases hmem with rfl | rfl | rfl | rfl | rfl | rfl | rfl
  · exact absurd (by decide) hnf
  · rfl
  · rfl
  · rfl
  · rfl
  · rfl
  · exact absurd rfl hne

/-! ### Marker occurrences inside well-formed grammar text -/

theorem upperOf_append (a b : List Char) : upperOf (a ++ b) = upperOf a ++ upperOf b :=
  List.map_append upChar a b

theorem length_upperOf (s : List Char) : (upperOf s).length = s.length :=
  List.length_map s upChar

theorem upperOf_fix : ∀ (s : List Char), (∀ c ∈ s, upChar c = c) → upperOf s = s
  | [], _ => rfl
  | c :: cs, h => by
    have hc : upChar c = c := h c (by simp)
    have ht := upperOf_fix cs (fun x hx => h x (List.mem_cons_of_mem _ hx))
    simp only [upperOf, List.map_cons] at *
    rw [hc, ht]

theorem upperOf_natChars (j : Nat) : upperOf (natChars j) = natChars j :=
  upperOf_fix _ (fun c hc => upChar_of_lt (by
    have := natChars_mem_range c hc; omega))

theorem upperOf_itemLine (W : List Char) (j : Nat) (t : List Char) :
    upperOf (itemLine W j t) = itemLine (upperOf W) j (upperOf t) := by
  have h1 : upperOf (natChars j) = natChars j := upperOf_natChars j
  unfold itemLine
  rw [upperOf_append]
  unfold upperOf at h1 ⊢
  simp only [List.map_cons, List.map_append, List.map_nil]
  rw [h1]
  rw [show upChar ' ' = ' ' from by decide, show upChar ':' = ':' from by decide,
    show upChar '\n' = '\n' from by decide]

theorem upperOf_sectionLines (W : List Char) :
    ∀ (items : List (List Char)) (j : Nat),
    upperOf (sectionLines W items j) =
      sectionLines (upperOf W) (items.map upperOf) j
  | [], _ => rfl
  | t :: rest, j => by
    simp only [sectionLines, List.map_cons]
    rw [upperOf_append, upperOf_itemLine, upperOf_sectionLines W rest (j + 1)]

/-- No occurrence of `n` starts inside the region `a` when the text
continues with `r`. -/
def noOccIn (n a r : List Char) : Prop :=
  ∀ k, k < a.length → ¬ n <+: (a ++ r).drop k

theorem noOccIn_nil (n r : List Char) : noOccIn n [] r := by
  intro k hk
  simp at hk

theorem drop_append_ge {x w : List Char} {k : Nat} (h : x.length ≤ k) :
    (x ++ w).drop k = w.drop (k - x.length) := by
  rw [List.drop_append_eq_append_drop, List.drop_eq_nil_of_le h, List.nil_append]

theorem noOccIn_append {n x y r : List Char} (hx : noOccIn n x (y ++ r))
    (hy : noOccIn n y r) : noOccIn n (x ++ y) r := by
  intro k hk
  rw [List.append_assoc]
  by_cases hkx : k < x.length
  · exact hx k hkx
  · push_neg at hkx
    rw [drop_append_ge hkx]
    have hky : k - x.length < y.length := by
      rw [List.length_append] at hk; omega
    exact hy (k - x.length) hky

theorem noOccIn_head_notin {c0 : Char} {n' a r : List Char} (hc : c0 ∉ a) :
    noOccIn (c0 :: n') a r := by
  intro k hk hpfx
  obtain ⟨t, ht⟩ := hpfx
  have h1 : ((a ++ r).drop k)[0]? = some c0 := by rw [← ht]; simp
  rw [List.getElem?_drop, Nat.add_zero, List.getElem?_append_left hk] at h1
  exact hc (List.getElem?_mem h1)

theorem noOccIn_cons_tail {n : List Char} {c : Char} {a b : List Char}
    (h : noOccIn n (c :: a) b) : noOccIn n a b := by
  intro k hk
  have := h (k + 1) (by simp only [List.length_cons]; omega)
  simpa using this

theorem strFind_cons (n : List Char) (c : Char) (t : List Char) :
    strFind n (c :: t) =
      if n.isPrefixOf (c :: t) then some 0 else (strFind n t).map (· + 1) := rfl

theorem strFind_of_prefix {n s : List Char} (hp : n <+: s) (hn : n ≠ []) :
    strFind n s = some 0 := by
  cases s with
  | nil => rw [List.prefix_nil] at hp; exact absurd hp hn
  | cons c t => rw [strFind_cons, if_pos (List.isPrefixOf_iff_prefix.mpr hp)]

theorem strFind_append_of_noOcc {n : List Char} :
    ∀ (a b : List Char), noOccIn n a b →
    strFind n (a ++ b) = (strFind n b).map (fun x => a.length + x)
  | [], b, _ => by
    simp only [List.nil_append, List.length_nil]
    cases strFind n b <;> simp
  | c :: a, b, h => by
    have h0 : ¬ n <+: ((c :: a) ++ b) := by
      have := h 0 (by simp)
      simpa using this
    rw [List.cons_append, strFind_cons,
      if_neg (fun hp => h0 (by
        rw [← List.cons_append] at hp
        exact List.isPrefixOf_iff_prefix.mp hp))]
    rw [strFind_append_of_noOcc a b (noOccIn_cons_tail h)]
    cases strFind n b with
    | none => rfl
    | some x =>
      show some (a.length + x + 1) = some (a.length + 1 + x)
      rw [Nat.add_right_comm]

theorem itemLine_length (UW : List Char) (j : Nat) (ut : List Char) :
    (itemLine UW j ut).length =
      UW.length + 1 + (natChars j).length + 2 + ut.length + 1 := by
  simp only [itemLine, List.length_append, List.length_cons, List.length_nil]
  omega

theorem itemLine_snoc (UW : List Char) (j : Nat) (ut : List Char) :
    itemLine UW j ut = (UW ++ ' ' :: (natChars j ++ ':' :: ' ' :: ut)) ++ ['\n'] := by
  simp [itemLine]

theorem itemLine_last (UW : List Char) (j : Nat) (ut : List Char) :
    (itemLine UW j ut)[(itemLine UW j ut).length - 1]? = some '\n' := by
  rw [itemLine_length, itemLine_snoc]
  rw [show UW.length + 1 + (natChars j).length + 2 + ut.length + 1 - 1 =
      (UW ++ ' ' :: (natChars j ++ ':' :: ' ' :: ut)).length from by
    simp only [List.length_append, List.length_cons]; omega]
  rw [List.getElem?_append_right (le_refl _), Nat.sub_self]
  rfl

theorem itemLine_digit_before (UW : List Char) (j : Nat) (ut : List Char) :
    ∃ c, (itemLine UW j ut)[UW.length + (natChars j).length]? = some c ∧
      48 ≤ c.toNat ∧ c.toNat ≤ 57 := by
  have hnj : natChars j ≠ [] := natChars_ne_nil j
  have h1 : 1 ≤ (natChars j).length := by
    cases hn : natChars j with
    | nil => exact absurd hn hnj
    | cons a l => simp
  unfold itemLine
  rw [List.getElem?_append_right (by omega), Nat.add_sub_cancel_left]
  rw [show (natChars j).length = ((natChars j).length - 1) + 1 from by omega,
    List.getElem?_cons_succ,
    List.getElem?_append_left (by omega)]
  rw [List.getElem?_eq_getElem (by omega)]
  exact ⟨_, rfl, natChars_mem_range _ (List.getElem_mem _)⟩

theorem itemLine_colon_unique (UW : List Char) (j : Nat) (ut : List Char)
    (hUW : ':' ∉ UW) (hut : ':' ∉ ut) :
    ∀ p, (itemLine UW j ut)[p]? = some ':' →
      p = UW.length + 1 + (natChars j).length := by
  intro p hp
  unfold itemLine at hp
  by_cases h1 : p < UW.length
  · rw [List.getElem?_append_left h1] at hp
    exact absurd (List.getElem?_mem hp) hUW
  · push_neg at h1
    obtain ⟨q, rfl⟩ := Nat.exists_eq_add_of_le h1
    rw [List.getElem?_append_right (by omega), Nat.add_sub_cancel_left] at hp
    cases q with
    | zero =>
      rw [List.getElem?_cons_zero] at hp
      exact absurd hp (by decide)
    | succ q1 =>
      rw [List.getElem?_cons_succ] at hp
      by_cases h2 : q1 < (natChars j).length
      · rw [List.getElem?_append_left h2] at hp
        have hrange := natChars_mem_range _ (List.getElem?_mem hp)
        rw [show (':' : Char).toNat = 58 from by decide] at hrange
        omega
      · push_neg at h2
        obtain ⟨q2, rfl⟩ := Nat.exists_eq_add_of_le h2
        rw [List.getElem?_append_right (by omega), Nat.add_sub_cancel_left] at hp
        cases q2 with
        | zero => omega
        | succ q3 =>
          rw [List.getElem?_cons_succ] at hp
          cases q3 with
          | zero =>
            rw [List.getElem?_cons_zero] at hp
            exact absurd hp (by decide)
          | succ q4 =>
            rw [List.getElem?_cons_succ] at hp
            by_cases h3 : q4 < ut.length
            · rw [List.getElem?_append_left h3] at hp
              exact absurd (List.getElem?_mem hp) hut
            · push_neg at h3
              rw [List.getElem?_append_right h3] at hp
              have h4 : q4 - ut.length = 0 := by
                by_contra hge
                rw [List.getElem?_eq_none (by
                  simp only [List.length_cons, List.length_nil]; omega)] at hp
                exact Option.noConfusion hp
              rw [h4, List.getElem?_cons_zero] at hp
              exact absurd hp (by decide)

theorem noOccIn_itemLine {n : List Char} (UW : List Char) (j : Nat) (ut : List Char)
    (hn2 : 2 ≤ n.length)
    (hlast : n[n.length - 1]? = some ':')
    (hpre : ∀ c, n[n.length - 2]? = some c → ¬(48 ≤ c.toNat ∧ c.toNat ≤ 57))
    (hnl : '\n' ∉ n)
    (hUW : ':' ∉ UW) (hut : ':' ∉ ut) (r : List Char) :
    noOccIn n (itemLine UW j ut) r := by
  intro k hk hpfx
  obtain ⟨tl, htl⟩ := hpfx
  have hLlen := itemLine_length UW j ut
  have hpos : ∀ idx, idx < n.length →
      (itemLine UW j ut ++ r)[k + idx]? = n[idx]? := by
    intro idx hidx
    rw [← List.getElem?_drop, ← htl, List.getElem?_append_left hidx]
  have hcolpos : (itemLine UW j ut ++ r)[k + (n.length - 1)]? = some ':' := by
    rw [hpos _ (by omega)]; exact hlast
  by_cases hin : k + (n.length - 1) < (itemLine UW j ut).length
  · rw [List.getElem?_append_left hin] at hcolpos
    have hcps := itemLine_colon_unique UW j ut hUW hut _ hcolpos
    obtain ⟨c, hc, hd1, hd2⟩ := itemLine_digit_before UW j ut
    have h2 : (itemLine UW j ut ++ r)[k + (n.length - 2)]? = n[n.length - 2]? :=
      hpos _ (by omega)
    rw [show k + (n.length - 2) = UW.length + (natChars j).length from by omega,
      List.getElem?_append_left (by omega), hc] at h2
    exact hpre c h2.symm ⟨hd1, hd2⟩
  · push_neg at hin
    have hnlL := itemLine_last UW j ut
    have h3 := hpos ((itemLine UW j ut).length - 1 - k) (by omega)
    rw [show k + ((itemLine UW j ut).length - 1 - k) =
        (itemLine UW j ut).length - 1 from by omega,
      List.getElem?_append_left (by omega), hnlL] at h3
    exact hnl (List.getElem?_mem h3.symm)

theorem noOccIn_sectionLines {n : List Char} (UW : List Char)
    (hn2 : 2 ≤ n.length)
    (hlast : n[n.length - 1]? = some ':')
    (hpre : ∀ c, n[n.length - 2]? = some c → ¬(48 ≤ c.toNat ∧ c.toNat ≤ 57))
    (hnl : '\n' ∉ n) (hUW : ':' ∉ UW) :
    ∀ (uitems : List (List Char)) (j : Nat) (r : List Char),
      (∀ ut ∈ uitems, ':' ∉ ut) →
      noOccIn n (sectionLines UW uitems j) r
  | [], _, _, _ => noOccIn_nil n _
  | ut :: rest, j, r, h => by
    show noOccIn n (itemLine UW j ut ++ sectionLines UW rest (j + 1)) r
    exact noOccIn_append
      (noOccIn_itemLine UW j ut hn2 hlast hpre hnl hUW (h ut (by simp)) _)
      (noOccIn_sectionLines UW hn2 hlast hpre hnl hUW rest (j + 1) r
        (fun u hu => h u (List.mem_cons_of_mem _ hu)))

theorem grammar_slices (ts ds bs : List (List Char))
    (hts : ∀ t ∈ ts, ':' ∉ t) (hds : ∀ d ∈ ds, ':' ∉ d) :
    strFind titlesMarker (upperOf (grammarText ts ds bs)) = some 0 ∧
    titlesSection (grammarText ts ds bs) =
      '\n' :: sectionLines "Title".toList ts 1 ∧
    descSection (grammarText ts ds bs) =
      '\n' :: sectionLines "Description".toList ds 1 ∧
    bulletsSection (grammarText ts ds bs) =
      '\n' :: sectionLines "Bullet".toList bs 1 := by
  have hcolT : ∀ ut ∈ ts.map upperOf, ':' ∉ ut := by
    intro ut hut
    obtain ⟨t, ht, rfl⟩ := List.mem_map.mp hut
    exact colon_notMem_upperOf (hts t ht)
  have hcolD : ∀ ut ∈ ds.map upperOf, ':' ∉ ut := by
    intro ut hut
    obtain ⟨d, hd, rfl⟩ := List.mem_map.mp hut
    exact colon_notMem_upperOf (hds d hd)
  have hupT : upperOf (sectionLines "Title".toList ts 1) =
      sectionLines "TITLE".toList (ts.map upperOf) 1 := by
    rw [upperOf_sectionLines]
    rw [show upperOf ("Title".toList) = "TITLE".toList from by decide]
  have hupD : upperOf (sectionLines "Description".toList ds 1) =
      sectionLines "DESCRIPTION".toList (ds.map upperOf) 1 := by
    rw [upperOf_sectionLines]
    rw [show upperOf ("Description".toList) = "DESCRIPTION".toList from by decide]
  have hpreD : ∀ c, descMarker[descMarker.length - 2]? = some c →
      ¬(48 ≤ c.toNat ∧ c.toNat ≤ 57) := by
    intro c hc
    rw [show descMarker[descMarker.length - 2]? = some 'S' from by decide] at hc
    injection hc with h
    subst h
    decide
  have hpreB : ∀ c, bulletsMarker[bulletsMarker.length - 2]? = some c →
      ¬(48 ≤ c.toNat ∧ c.toNat ≤ 57) := by
    intro c hc
    rw [show bulletsMarker[bulletsMarker.length - 2]? = some 'S' from by decide] at hc
    injection hc with h
    subst h
    decide
  have hU : upperOf (grammarText ts ds bs) =
      ("TITLES:\n".toList ++ upperOf (sectionLines "Title".toList ts 1)) ++
        ("DESCRIPTIONS:\n".toList ++
          (upperOf (sectionLines "Description".toList ds 1) ++
            ("BULLETS:\n".toList ++ upperOf (sectionLines "Bullet".toList bs 1)))) := by
    unfold grammarText
    rw [upperOf_append, upperOf_append, upperOf_append, upperOf_append, upperOf_append]
    rw [show upperOf ("TITLES:\n".toList) = "TITLES:\n".toList from by decide,
      show upperOf ("DESCRIPTIONS:\n".toList) = "DESCRIPTIONS:\n".toList from by decide,
      show upperOf ("BULLETS:\n".toList) = "BULLETS:\n".toList from by decide]
    simp [List.append_assoc]
  have hfT : strFind titlesMarker (upperOf (grammarText ts ds bs)) = some 0 := by
    rw [hU]
    exact strFind_of_prefix
      ⟨'\n' :: (upperOf (sectionLines "Title".toList ts 1) ++
        ("DESCRIPTIONS:\n".toList ++
          (upperOf (sectionLines "Description".toList ds 1) ++
            ("BULLETS:\n".toList ++ upperOf (sectionLines "Bullet".toList bs 1))))), rfl⟩
      (by decide)
  have hnoT : noOccIn descMarker
      ("TITLES:\n".toList ++ upperOf (sectionLines "Title".toList ts 1))
      ("DESCRIPTIONS:\n".toList ++
        (upperOf (sectionLines "Description".toList ds 1) ++
          ("BULLETS:\n".toList ++ upperOf (sectionLines "Bullet".toList bs 1)))) := by
    apply noOccIn_append
    · exact noOccIn_head_notin (by decide)
    · rw [hupT]
      exact noOccIn_sectionLines "TITLE".toList (by decide) (by decide) hpreD
        (by decide) (by decide) (ts.map upperOf) 1 _ hcolT
  have hpD : descMarker <+:
      ("DESCRIPTIONS:\n".toList ++
        (upperOf (sectionLines "Description".toList ds 1) ++
          ("BULLETS:\n".toList ++ upperOf (sectionLines "Bullet".toList bs 1)))) :=
    ⟨'\n' :: (upperOf (sectionLines "Description".toList ds 1) ++
      ("BULLETS:\n".toList ++ upperOf (sectionLines "Bullet".toList bs 1))), rfl⟩
  have hfD : strFind descMarker (upperOf (grammarText ts ds bs)) =
      some (8 + (sectionLines "Title".toList ts 1).length) := by
    rw [hU, strFind_append_of_noOcc _ _ hnoT, strFind_of_prefix hpD (by decide)]
    show some (("TITLES:\n".toList ++
        upperOf (sectionLines "Title".toList ts 1)).length + 0) =
      some (8 + (sectionLines "Title".toList ts 1).length)
    rw [List.length_append, length_upperOf, Nat.add_zero,
      show ("TITLES:\n".toList).length = 8 from rfl]
  have hnoB : noOccIn bulletsMarker
      ("TITLES:\n".toList ++ (upperOf (sectionLines "Title".toList ts 1) ++
        ("DESCRIPTIONS:\n".toList ++ upperOf (sectionLines "Description".toList ds 1))))
      ("BULLETS:\n".toList ++ upperOf (sectionLines "Bullet".toList bs 1)) := by
    apply noOccIn_append
    · exact noOccIn_head_notin (by decide)
    apply noOccIn_append
    · rw [hupT]
      exact noOccIn_sectionLines "TITLE".toList (by decide) (by decide) hpreB
        (by decide) (by decide) (ts.map upperOf) 1 _ hcolT
    apply noOccIn_append
    · exact noOccIn_head_notin (by decide)
    · rw [hupD]
      exact noOccIn_sectionLines "DESCRIPTION".toList (by decide) (by decide) hpreB
        (by decide) (by decide) (ds.map upperOf) 1 _ hcolD
  have hU2 : upperOf (grammarText ts ds bs) =
      ("TITLES:\n".toList ++ (upperOf (sectionLines "Title".toList ts 1) ++
        ("DESCRIPTIONS:\n".toList ++
          upperOf (sectionLines "Description".toList ds 1)))) ++
        ("BULLETS:\n".toList ++ upperOf (sectionLines "Bullet".toList bs 1)) := by
    rw [hU]
    simp [List.append_assoc]
  have hpB : bulletsMarker <+:
      ("BULLETS:\n".toList ++ upperOf (sectionLines "Bullet".toList bs 1)) :=
    ⟨'\n' :: upperOf (sectionLines "Bullet".toList bs 1), rfl⟩
  have hfB : strFind bulletsMarker (upperOf (grammarText ts ds bs)) =
      some (22 + ((sectionLines "Title".toList ts 1).length +
        (sectionLines "Description".toList ds 1).length)) := by
    rw [hU2, strFind_append_of_noOcc _ _ hnoB, strFind_of_prefix hpB (by decide)]
    show some (("TITLES:\n".toList ++ (upperOf (sectionLines "Title".toList ts 1) ++
        ("DESCRIPTIONS:\n".toList ++
          upperOf (sectionLines "Description".toList ds 1)))).length + 0) =
      some (22 + ((sectionLines "Title".toList ts 1).length +
        (sectionLines "Description".toList ds 1).length))
    congr 1
    simp only [List.length_append, length_upperOf]
    rw [show ("TITLES:\n".toList).length = 8 from rfl,
      show ("DESCRIPTIONS:\n".toList).length = 14 from rfl]
    omega
  have htext1 : grammarText ts ds bs =
      "TITLES:".toList ++ ('\n' :: (sectionLines "Title".toList ts 1 ++
        ("DESCRIPTIONS:".toList ++ ('\n' :: (sectionLines "Description".toList ds 1 ++
          ("BULLETS:".toList ++ ('\n' :: sectionLines "Bullet".toList bs 1))))))) := by
    unfold grammarText
    rfl
  have htext2 : grammarText ts ds bs =
      ("TITLES:".toList ++ ('\n' :: (sectionLines "Title".toList ts 1 ++
        "DESCRIPTIONS:".toList))) ++
        ('\n' :: (sectionLines "Description".toList ds 1 ++
          ("BULLETS:".toList ++ ('\n' :: sectionLines "Bullet".toList bs 1)))) := by
    rw [htext1]
    simp [List.append_assoc]
  have htext3 : grammarText ts ds bs =
      ("TITLES:".toList ++ ('\n' :: (sectionLines "Title".toList ts 1 ++
        ("DESCRIPTIONS:".toList ++ ('\n' :: (sectionLines "Description".toList ds 1 ++
          "BULLETS:".toList)))))) ++
        ('\n' :: sectionLines "Bullet".toList bs 1) := by
    rw [htext1]
    simp [List.append_assoc]
  have hlen2 : ("TITLES:".toList ++ ('\n' :: (sectionLines "Title".toList ts 1 ++
      "DESCRIPTIONS:".toList))).length =
      8 + (sectionLines "Title".toList ts 1).length + 13 := by
    simp only [List.length_append, List.length_cons,
      show ("TITLES:".toList).length = 7 from rfl,
      show ("DESCRIPTIONS:".toList).length = 13 from rfl]
    omega
  have hlen3 : ("TITLES:".toList ++ ('\n' :: (sectionLines "Title".toList ts 1 ++
      ("DESCRIPTIONS:".toList ++ ('\n' :: (sectionLines "Description".toList ds 1 ++
        "BULLETS:".toList)))))).length =
      22 + ((sectionLines "Title".toList ts 1).length +
        (sectionLines "Description".toList ds 1).length) + 8 := by
    simp only [List.length_append, List.length_cons,
      show ("TITLES:".toList).length = 7 from rfl,
      show ("DESCRIPTIONS:".toList).length = 13 from rfl,
      show ("BULLETS:".toList).length = 8 from rfl]
    omega
  have hsecT : titlesSection (grammarText ts ds bs) =
      '\n' :: sectionLines "Title".toList ts 1 := by
    unfold titlesSection
    rw [hfT, hfD]
    show pySlice (grammarText ts ds bs) (0 + 7)
      (8 + (sectionLines "Title".toList ts 1).length) =
      '\n' :: sectionLines "Title".toList ts 1
    unfold pySlice
    rw [show (grammarText ts ds bs).drop (0 + 7) =
        '\n' :: (sectionLines "Title".toList ts 1 ++
          ("DESCRIPTIONS:".toList ++ ('\n' :: (sectionLines "Description".toList ds 1 ++
            ("BULLETS:".toList ++ ('\n' :: sectionLines "Bullet".toList bs 1)))))) from by
      rw [htext1, show (0:Nat) + 7 = ("TITLES:".toList).length from rfl, List.drop_left]]
    rw [show 8 + (sectionLines "Title".toList ts 1).length - (0 + 7) =
        (sectionLines "Title".toList ts 1).length + 1 from by omega]
    rw [List.take_succ_cons, List.take_left]
  have hsecD : descSection (grammarText ts ds bs) =
      '\n' :: sectionLines "Description".toList ds 1 := by
    unfold descSection
    rw [hfD, hfB]
    show pySlice (grammarText ts ds bs)
      (8 + (sectionLines "Title".toList ts 1).length + 13)
      (22 + ((sectionLines "Title".toList ts 1).length +
        (sectionLines "Description".toList ds 1).length)) =
      '\n' :: sectionLines "Description".toList ds 1
    unfold pySlice
    rw [show (grammarText ts ds bs).drop
        (8 + (sectionLines "Title".toList ts 1).length + 13) =
        '\n' :: (sectionLines "Description".toList ds 1 ++
          ("BULLETS:".toList ++ ('\n' :: sectionLines "Bullet".toList bs 1))) from by
      rw [htext2, ← hlen2, List.drop_left]]
    rw [show 22 + ((sectionLines "Title".toList ts 1).length +
        (sectionLines "Description".toList ds 1).length) -
        (8 + (sectionLines "Title".toList ts 1).length + 13) =
        (sectionLines "Description".toList ds 1).length + 1 from by omega]
    rw [List.take_succ_cons, List.take_left]
  have hsecB : bulletsSection (grammarText ts ds bs) =
      '\n' :: sectionLines "Bullet".toList bs 1 := by
    unfold bulletsSection
    rw [hfB]
    show (grammarText ts ds bs).drop
      (22 + ((sectionLines "Title".toList ts 1).length +
        (sectionLines "Description".toList ds 1).length) + 8) =
      '\n' :: sectionLines "Bullet".toList bs 1
    rw [htext3, ← hlen3, List.drop_left]
  exact ⟨hfT, hsecT, hsecD, hsecB⟩

/-- C5: parsing a text that follows the declared output grammar, with
requested counts equal to the number of items per section and every item
satisfying `itemOk` and the per-type minimum length, recovers exactly
the three item lists in label order with zero loss. -/
theorem claim_C5 (ts ds bs : List (List Char))
    (hts : ∀ t ∈ ts, itemOk t ∧ 10 < t.length)
    (hds : ∀ d ∈ ds, itemOk d ∧ 20 < d.length)
    (hbs : ∀ b ∈ bs, itemOk b ∧ 10 < b.length) :
    parse_gemini_response (grammarText ts ds bs) ts.length ds.length bs.length =
      (ts, ds, bs) := by
  obtain ⟨hT, hsT, hsD, hsB⟩ := grammar_slices ts ds bs
    (fun t ht => (hts t ht).1.2.1) (fun d hd => (hds d hd).1.2.1)
  have e1 : parseSection "Title".toList (some descMarker) 10
      ('\n' :: sectionLines "Title".toList ts 1) ts.length = ts :=
    parseSection_grammar 'T' "itle".toList (some descMarker) 10 (by decide) (by decide)
      (Or.inr ⟨descMarker, 12, rfl, by decide, by decide⟩) title_suffix_strip ts hts
  have e2 : parseSection "Description".toList (some bulletsMarker) 20
      ('\n' :: sectionLines "Description".toList ds 1) ds.length = ds :=
    parseSection_grammar 'D' "escription".toList (some bulletsMarker) 20 (by decide)
      (by decide) (Or.inr ⟨bulletsMarker, 7, rfl, by decide, by decide⟩)
      description_suffix_strip ds hds
  have e3 : parseSection "Bullet".toList none 10
      ('\n' :: sectionLines "Bullet".toList bs 1) bs.length = bs :=
    parseSection_grammar 'B' "ullet".toList none 10 (by decide) (by decide)
      (Or.inl rfl) bullet_suffix_strip bs hbs
  unfold parse_gemini_response
  rw [hT, hsT, hsD, hsB]
  show (parseSection "Title".toList (some descMarker) 10
      ('\n' :: sectionLines "Title".toList ts 1) ts.length,
    parseSection "Description".toList (some bulletsMarker) 20
      ('\n' :: sectionLines "Description".toList ds 1) ds.length,
    parseSection "Bullet".toList none 10
      ('\n' :: sectionLines "Bullet".toList bs 1) bs.length) = (ts, ds, bs)
  rw [e1, e2, e3]

theorem claim_C5_witness :
    parse_gemini_response
      (grammarText ["Wireless Ergonomic Mouse".toList]
        ["A comfortable mouse with long battery life".toList]
        ["Ergonomic shape fits hand".toList]) 1 1 1 =
      (["Wireless Ergonomic Mouse".toList],
       ["A comfortable mouse with long battery life".toList],
       ["Ergonomic shape fits hand".toList]) := by
  have h := claim_C5 ["Wireless Ergonomic Mouse".toList]
    ["A comfortable mouse with long battery life".toList]
    ["Ergonomic shape fits hand".toList]
    (by
      intro t ht
      rw [List.mem_singleton] at ht
      subst ht
      exact ⟨⟨by decide, by decide, by decide, by decide, by decide, by decide⟩, by decide⟩)
    (by
      intro d hd
      rw [List.mem_singleton] at hd
      subst hd
      exact ⟨⟨by decide, by decide, by decide, by decide, by decide, by decide⟩, by decide⟩)
    (by
      intro b hb
      rw [List.mem_singleton] at hb
      subst hb
      exact ⟨⟨by decide, by decide, by decide, by decide, by decide, by decide⟩, by decide⟩)
  exact h

theorem parseSection_one_short (lab : List Char) (m : Option (List Char)) (minLen : Nat)
    (sec : List Char) (cap : List Char)
    (hsearch : regexSearchItem lab 1 m sec = some cap)
    (hlen : (pyNormalize cap).length ≤ minLen) :
    parseSection lab m minLen sec 1 = [] := by
  unfold parseSection
  rw [show List.range 1 = [0] from rfl]
  rw [List.foldl_cons, List.foldl_nil]
  unfold parseSectionStep
  rw [hsearch]
  show (if minLen < (pyNormalize cap).length then [] ++ [pyNormalize cap] else []) = []
  rw [if_neg (by omega)]

/-- C6: a matched item whose normalised content has length exactly 10
(titles, bullets) or exactly 20 (descriptions) is excluded by the
strict-inequality minimum-length filter, while one of length 11
(titles, bullets) or 21 (descriptions) is included. -/
theorem claim_C6 (t d b : List Char) (ht : itemOk t) (hd : itemOk d) (hb : itemOk b)
    (hlt : t.length = 10 ∨ t.length = 11)
    (hld : d.length = 20 ∨ d.length = 21)
    (hlb : b.length = 10 ∨ b.length = 11) :
    parse_gemini_response (grammarText [t] [d] [b]) 1 1 1 =
      ((if t.length = 11 then [t] else []),
       (if d.length = 21 then [d] else []),
       (if b.length = 11 then [b] else [])) := by
  obtain ⟨hT, hsT, hsD, hsB⟩ := grammar_slices [t] [d] [b]
    (by intro x hx; rw [List.mem_singleton] at hx; subst hx; exact ht.2.1)
    (by intro x hx; rw [List.mem_singleton] at hx; subst hx; exact hd.2.1)
  have hitemsT : ∀ x ∈ [t], itemOk x := by
    intro x hx; rw [List.mem_singleton] at hx; subst hx; exact ht
  have hitemsD : ∀ x ∈ [d], itemOk x := by
    intro x hx; rw [List.mem_singleton] at hx; subst hx; exact hd
  have hitemsB : ∀ x ∈ [b], itemOk x := by
    intro x hx; rw [List.mem_singleton] at hx; subst hx; exact hb
  have hTcomp : parseSection "Title".toList (some descMarker) 10
      ('\n' :: sectionLines "Title".toList [t] 1) 1 =
      (if t.length = 11 then [t] else []) := by
    rcases hlt with h10 | h11
    · rw [if_neg (by omega)]
      obtain ⟨cap, hcap, hnorm⟩ := search_section 'T' "itle".toList (some descMarker)
        (by decide) (by decide) (Or.inr ⟨descMarker, 12, rfl, by decide, by decide⟩)
        title_suffix_strip [t] hitemsT 0 (by simp)
      refine parseSection_one_short _ _ _ _ cap hcap ?_
      rw [hnorm]
      show t.length ≤ 10
      omega
    · rw [if_pos h11]
      exact parseSection_grammar 'T' "itle".toList (some descMarker) 10 (by decide)
        (by decide) (Or.inr ⟨descMarker, 12, rfl, by decide, by decide⟩)
        title_suffix_strip [t]
        (by intro x hx; rw [List.mem_singleton] at hx; subst hx; exact ⟨ht, by omega⟩)
  have hDcomp : parseSection "Description".toList (some bulletsMarker) 20
      ('\n' :: sectionLines "Description".toList [d] 1) 1 =
      (if d.length = 21 then [d] else []) := by
    rcases hld with h20 | h21
    · rw [if_neg (by omega)]
      obtain ⟨cap, hcap, hnorm⟩ := search_section 'D' "escription".toList
        (some bulletsMarker) (by decide) (by decide)
        (Or.inr ⟨bulletsMarker, 7, rfl, by decide, by decide⟩)
        description_suffix_strip [d] hitemsD 0 (by simp)
      refine parseSection_one_short _ _ _ _ cap hcap ?_
      rw [hnorm]
      show d.length ≤ 20
      omega
    · rw [if_pos h21]
      exact parseSection_grammar 'D' "escription".toList (some bulletsMarker) 20
        (by decide) (by decide) (Or.inr ⟨bulletsMarker, 7, rfl, by decide, by decide⟩)
        description_suffix_strip [d]
        (by intro x hx; rw [List.mem_singleton] at hx; subst hx; exact ⟨hd, by omega⟩)
  have hBcomp : parseSection "Bullet".toList none 10
      ('\n' :: sectionLines "Bullet".toList [b] 1) 1 =
      (if b.length = 11 then [b] else []) := by
    rcases hlb with h10 | h11
    · rw [if_neg (by omega)]
      obtain ⟨cap, hcap, hnorm⟩ := search_section 'B' "ullet".toList none
        (by decide) (by decide) (Or.inl rfl)
        bullet_suffix_strip [b] hitemsB 0 (by simp)
      refine parseSection_one_short _ _ _ _ cap hcap ?_
      rw [hnorm]
      show b.length ≤ 10
      omega
    · rw [if_pos h11]
      exact parseSection_grammar 'B' "ullet".toList none 10 (by decide) (by decide)
        (Or.inl rfl) bullet_suffix_strip [b]
        (by intro x hx; rw [List.mem_singleton] at hx; subst hx; exact ⟨hb, by omega⟩)
  unfold parse_gemini_response
  rw [hT, hsT, hsD, hsB]
  show (parseSection "Title".toList (some descMarker) 10
      ('\n' :: sectionLines "Title".toList [t] 1) 1,
    parseSection "Description".toList (some bulletsMarker) 20
      ('\n' :: sectionLines "Description".toList [d] 1) 1,
    parseSection "Bullet".toList none 10
      ('\n' :: sectionLines "Bullet".toList [b] 1) 1) =
    ((if t.length = 11 then [t] else []),
     (if d.length = 21 then [d] else []),
     (if b.length = 11 then [b] else []))
  rw [hTcomp, hDcomp, hBcomp]

theorem claim_C6_witness :
    parse_gemini_response
      (grammarText ["abcdefghij".toList] ["abcdefghijklmnopqrstu".toList]
        ["abcdefghijk".toList]) 1 1 1 =
      ([], ["abcdefghijklmnopqrstu".toList], ["abcdefghijk".toList]) := by
  have h := claim_C6 "abcdefghij".toList "abcdefghijklmnopqrstu".toList
    "abcdefghijk".toList
    ⟨by decide, by decide, by decide, by decide, by decide, by decide⟩
    ⟨by decide, by decide, by decide, by decide, by decide, by decide⟩
    ⟨by decide, by decide, by decide, by decide, by decide, by decide⟩
    (Or.inl (by decide)) (Or.inr (by decide)) (Or.inr (by decide))
  rw [h]
  decide
